import Mathlib

/-!
Verification of the OCuLaR router host code (src/common/ocular.cc) against its
natural-language specification.

The embedding below translates the host-side routines of `OcularRouter`
(`build_graph`, `import_nets`, `alloc_buffers`, `mark_region`, `check_region`,
`prefix_sum`, `operator()` / `router_ocular`) into pure Lean functions.

Modelling conventions:
* The architecture database (`ctx->getWires()`, `getPipsDownhill`, availability
  predicates, delay queries, bel locations) is an external collaborator; it is
  represented by the `Arch` structure whose fields mirror exactly the queries
  the router performs.
* Delays are `float` nanoseconds in the source; they are modelled as exact
  rationals.  The C++ cast `int(x)` (truncation towards zero) is `cTrunc`,
  and the C `round` function (half away from zero) is `cRound`.
* A C++ abort (a failed `NPNR_ASSERT`, a `log_error`, or an out-of-range
  `std::map::at` / `std::vector::at`) is modelled by `Option.none` or by an
  explicit `Except` error describing which abort fired.
* `uint32_t` arithmetic wraps modulo `2 ^ 32`; this is written explicitly.
-/

namespace Ocular

/-! ## The embedded program and concrete instances -/

/-- The C++ cast of a real value to `int`: truncation towards zero. -/
def cTrunc (q : ℚ) : Int := if 0 ≤ q then ⌊q⌋ else ⌈q⌉

/-- The C `round` function: rounding half away from zero. -/
def cRound (q : ℚ) : Int := if 0 ≤ q then ⌊q + 1/2⌋ else ⌈q - 1/2⌉

/-- `const float delay_scale = 1000.0f` -- conversion from float ns to int ps. -/
def delay_scale : ℚ := 1000

/-- `const int32_t inf_cost = 0x7FFFFFF`. -/
def inf_cost : Int := 0x7FFFFFF

/-- One downhill pip as the router queries it from the architecture database:
its identity, `checkPipAvail`, `getPipDstWire`, and
`getDelayNS(getPipDelay(p).maxDelay())`. -/
structure PipInfo where
  pid : Nat
  avail : Bool
  dst : Nat
  delayNS : ℚ
  deriving Repr, DecidableEq

/-- One wire as the router queries it: its identity, the corners of
`getRouteBoundingBox(w, w)`, and `getPipsDownhill(w)`. -/
structure WireInfo where
  wid : Nat
  x0 : Int
  y0 : Int
  x1 : Int
  y1 : Int
  pipsDownhill : List PipInfo
  deriving Repr, DecidableEq

/-- The slice of the architecture database used by `build_graph`:
the wire iterator, `checkWireAvail`, and
`getDelayNS(getWireDelay(w).maxDelay())` for destination wires. -/
structure Arch where
  wires : List WireInfo
  wireAvail : Nat → Bool
  wireDelayNS : Nat → ℚ

/-- An entry of the flattened adjacency list: the parallel triples pushed to
`edge_cost`, `edge_dst_index` and `edge_pip`. -/
structure EdgeInfo where
  cost : Int
  dst : Nat
  pip : Nat
  deriving Repr, DecidableEq

/-- The `wire_to_index` map after the first loop of `build_graph`.
`wire_to_index[wire] = wire_data.size()` is an overwriting map assignment, so
entries are kept newest-first and `List.lookup` returns the latest write. -/
def wireIndexAux : List WireInfo → Nat → List (Nat × Nat)
  | [], _ => []
  | w :: ws, i => wireIndexAux ws (i + 1) ++ [(w.wid, i)]

/-- `wire_to_index` as built by the first loop of `build_graph`. -/
def wireIndexMap (ws : List WireInfo) : List (Nat × Nat) := wireIndexAux ws 0

/-- The integer edge cost computed by `build_graph`:
`int((getDelayNS(pip delay) + getDelayNS(dst wire delay)) * delay_scale)`. -/
def edgeCost (a : Arch) (p : PipInfo) : Int :=
  cTrunc ((p.delayNS + a.wireDelayNS p.dst) * delay_scale)

/-- The inner pip loop of `build_graph` for one wire: skip unavailable pips and
pips whose destination wire is unavailable, otherwise append the edge.
`wire_to_index.at(dst)` throws when `dst` was never indexed; that abort is
`none`. -/
def edgesFor (a : Arch) (w2i : List (Nat × Nat)) : List PipInfo → Option (List EdgeInfo)
  | [] => some []
  | p :: ps =>
    if p.avail then
      if a.wireAvail p.dst then
        match w2i.lookup p.dst with
        | some idx =>
          match edgesFor a w2i ps with
          | some rest => some (⟨edgeCost a p, idx, p.pid⟩ :: rest)
          | none => none
        | none => none
      else edgesFor a w2i ps
    else edgesFor a w2i ps

/-- The second loop of `build_graph`: write `adj_offset[i]` (the running edge
count) for each wire, append that wire's edges, and finally write the sentinel
`adj_offset[W] = edge count`. -/
def buildCSR (a : Arch) (w2i : List (Nat × Nat)) :
    List WireInfo → Nat → Option (List Nat × List EdgeInfo)
  | [], ecount => some ([ecount], [])
  | w :: ws, ecount =>
    match edgesFor a w2i w.pipsDownhill with
    | some es =>
      match buildCSR a w2i ws (ecount + es.length) with
      | some (offs, rest) => some (ecount :: offs, es ++ rest)
      | none => none
    | none => none

/-- `width = max(x1 + 1, width)` folded over all wires, starting from 0. -/
def gridWidth (ws : List WireInfo) : Int :=
  ws.foldl (fun acc w => max (w.x1 + 1) acc) 0

/-- `height = max(y1 + 1, height)` folded over all wires, starting from 0. -/
def gridHeight (ws : List WireInfo) : Int :=
  ws.foldl (fun acc w => max (w.y1 + 1) acc) 0

/-- The state `build_graph` leaves behind (the fields of `OcularRouter` it
writes).  `edges` holds the parallel arrays `edge_cost` / `edge_dst_index` /
`edge_pip` as one list of triples. -/
structure GraphState where
  wire_x : List Int
  wire_y : List Int
  wire_data : List Nat
  wire_to_index : List (Nat × Nat)
  width : Int
  height : Int
  adj_offset : List Nat
  edges : List EdgeInfo
  current_cost : List Int
  bound_count : List Nat
  deriving Repr, DecidableEq, Inhabited

/-- The `edge_dst_index` buffer of a built graph. -/
def GraphState.edge_dst_index (st : GraphState) : List Nat := st.edges.map EdgeInfo.dst

/-- The `edge_cost` buffer of a built graph. -/
def GraphState.edge_cost (st : GraphState) : List Int := st.edges.map EdgeInfo.cost

/-- `OcularRouter::build_graph`.  The first loop imports every wire (centroid
coordinates, `wire_data`, `wire_to_index`, grid dimensions); the second loop
builds the CSR adjacency list; then `current_cost` is filled with `inf_cost`
and `bound_count` is sized to the wire count (value-initialised to zero). -/
def build_graph (a : Arch) : Option GraphState :=
  match buildCSR a (wireIndexMap a.wires) a.wires 0 with
  | some (offs, es) =>
    some
      { wire_x := a.wires.map fun w => (w.x0 + w.x1).tdiv 2
        wire_y := a.wires.map fun w => (w.y0 + w.y1).tdiv 2
        wire_data := a.wires.map WireInfo.wid
        wire_to_index := wireIndexMap a.wires
        width := gridWidth a.wires
        height := gridHeight a.wires
        adj_offset := offs
        edges := es
        current_cost := List.replicate a.wires.length inf_cost
        bound_count := List.replicate a.wires.length 0 }
  | none => none

/-- A concrete two-wire architecture used to instantiate the theorems:
wire 10 has one available pip to wire 11 and one unavailable pip. -/
def archA : Arch :=
  { wires :=
      [ { wid := 10, x0 := 0, y0 := 0, x1 := 1, y1 := 1,
          pipsDownhill :=
            [ { pid := 100, avail := true, dst := 11, delayNS := 3/2 },
              { pid := 101, avail := false, dst := 10, delayNS := 1 } ] },
        { wid := 11, x0 := 2, y0 := 0, x1 := 3, y1 := 1, pipsDownhill := [] } ]
    wireAvail := fun _ => true
    wireDelayNS := fun _ => 1/2 }

/-- The graph state `build_graph` produces on `archA`, written out. -/
def stA : GraphState :=
  { wire_x := [0, 2]
    wire_y := [0, 0]
    wire_data := [10, 11]
    wire_to_index := [(11, 1), (10, 0)]
    width := 4
    height := 2
    adj_offset := [0, 1, 1]
    edges := [⟨2000, 1, 100⟩]
    current_cost := [inf_cost, inf_cost]
    bound_count := [0, 0] }

/-- A one-wire architecture whose single pip has delay `1/512` ns, so that
`(delay sum) * 1000 = 125/64 = 1.953125`: the C++ cast stores `1` while
`round` would give `2`.  All values are exactly representable as `float`
and the float products are exact, so the rational model agrees with the
float computation here. -/
def archC2 : Arch :=
  { wires :=
      [ { wid := 0, x0 := 0, y0 := 0, x1 := 0, y1 := 0,
          pipsDownhill := [ { pid := 7, avail := true, dst := 0, delayNS := 1/512 } ] } ]
    wireAvail := fun _ => true
    wireDelayNS := fun _ => 0 }

/-- The graph state `build_graph` produces on `archC2`. -/
def stC2 : GraphState :=
  { wire_x := [0]
    wire_y := [0]
    wire_data := [0]
    wire_to_index := [(0, 0)]
    width := 1
    height := 1
    adj_offset := [0, 1]
    edges := [⟨1, 0, 7⟩]
    current_cost := [inf_cost]
    bound_count := [0] }

/-- Work partitioning constants of `OcularRouter`. -/
def num_workgroups : Nat := 64

/-- `const int near_queue_len = 15000`. -/
def near_queue_len : Nat := 15000

/-- `const int far_queue_len = 100000`. -/
def far_queue_len : Nat := 100000

/-- `const int dirty_queue_len = 100000`. -/
def dirty_queue_len : Nat := 100000

/-- `const int workgroup_size = 128`. -/
def workgroup_size : Nat := 128

/-- `const int max_nets_in_flight = 32`. -/
def max_nets_in_flight : Nat := 32

/-- The `grid2net` vector after `alloc_buffers`:
`grid2net.resize(width * height)` value-initialises every `int8_t` cell to
`0` (not to `-1`). -/
def alloc_grid2net (width height : Int) : List Int :=
  List.replicate (width * height).toNat 0

/-- The inner `x` loop of `check_region` starting at `x` with `n` iterations
left: assert `0 ≤ x < width`, then return `false` at the first mismatching
cell, exactly as the source does (a later out-of-range `x` is never reached
once a mismatch occurred). -/
def checkRow (g : List Int) (width : Int) (v : Int) (y : Int) : Int → Nat → Option Bool
  | _, 0 => some true
  | x, n+1 =>
    if 0 ≤ x ∧ x < width then
      if g.getD (y * width + x).toNat 0 = v then checkRow g width v y (x + 1) n
      else some false
    else none

/-- The outer `y` loop of `check_region`: assert `0 ≤ y < height` before each
row (also when the `x` range is empty). -/
def checkRows (g : List Int) (width height : Int) (v : Int) (x0 x1 : Int) :
    Int → Nat → Option Bool
  | _, 0 => some true
  | y, n+1 =>
    if 0 ≤ y ∧ y < height then
      match checkRow g width v y x0 (x1 + 1 - x0).toNat with
      | some true => checkRows g width height v x0 x1 (y + 1) n
      | some false => some false
      | none => none
    else none

/-- `OcularRouter::check_region(x0, y0, x1, y1, value)`.  The function only
reads `grid2net`, so the grid is passed in and not returned: the source
leaves it unchanged by construction.  `none` models a failed `NPNR_ASSERT`. -/
def check_region (g : List Int) (width height : Int) (x0 y0 x1 y1 : Int) (v : Int) :
    Option Bool :=
  checkRows g width height v x0 x1 y0 (y1 + 1 - y0).toNat

/-- The inner `x` loop of `mark_region`. -/
def markRow (width : Int) (v : Int) (y : Int) : List Int → Int → Nat → Option (List Int)
  | g, _, 0 => some g
  | g, x, n+1 =>
    if 0 ≤ x ∧ x < width then
      markRow width v y (g.set (y * width + x).toNat v) (x + 1) n
    else none

/-- The outer `y` loop of `mark_region`. -/
def markRows (width height : Int) (v : Int) (x0 x1 : Int) :
    List Int → Int → Nat → Option (List Int)
  | g, _, 0 => some g
  | g, y, n+1 =>
    if 0 ≤ y ∧ y < height then
      match markRow width v y g x0 (x1 + 1 - x0).toNat with
      | some g1 => markRows width height v x0 x1 g1 (y + 1) n
      | none => none
    else none

/-- `OcularRouter::mark_region(x0, y0, x1, y1, value)`: stamp every cell of
the rectangle with `v`.  The function touches only `grid2net`, which is why
the model takes and returns just the grid.  `none` models a failed
`NPNR_ASSERT`. -/
def mark_region (g : List Int) (width height : Int) (x0 y0 x1 y1 : Int) (v : Int) :
    Option (List Int) :=
  markRows width height v x0 x1 g y0 (y1 + 1 - y0).toNat

/-- `2 ^ 32`, the modulus of `uint32_t` arithmetic. -/
def U32 : Nat := 4294967296

/-- The loop of `prefix_sum` with accumulator `sum`: the first `n` entries
are rewritten to the running (wrapping) sum; `in.at(i)` throws once the
buffer is exhausted (`none`). -/
def psGo (sum : Nat) : List Nat → Nat → Option (List Nat × Nat)
  | l, 0 => some (l, sum)
  | [], _ + 1 => none
  | x :: xs, n + 1 =>
    match psGo ((sum + x) % U32) xs n with
    | some (ys, r) => some ((sum + x) % U32 :: ys, r)
    | none => none

/-- `OcularRouter::prefix_sum(in, count)`: returns the rewritten buffer
together with the returned total. -/
def prefix_sum (l : List Nat) (n : Nat) : Option (List Nat × Nat) := psGo 0 l n

/-- `STRENGTH_STRONG`.  The strength enumeration lives in `nextpnr.h`, outside
the provided sources; modelled from the spec: only the ordering matters
("strength greater than `STRONG`"), so strengths are naturals with
`STRENGTH_STRONG = 2`. -/
def STRENGTH_STRONG : Nat := 2

/-- One `ni->users` entry: the wire `getNetinfoSinkWire(ni, usr)` resolves to
and the grid location of the user cell's bel. -/
structure NetUser where
  sinkWire : Nat
  ux : Int
  uy : Int
  deriving Repr, DecidableEq

/-- One net as `import_nets` reads it: the driver cell's bel location (or
`none` when `ni->driver.cell == nullptr`), the sinks, and the pre-existing
wire bindings `ni->wires` as (wire id, strength) pairs with unique keys
(`ni->wires` is a `std::map`). -/
structure NetInfo where
  driver : Option (Int × Int)
  users : List NetUser
  wires : List (Nat × Nat)
  deriving Repr, DecidableEq

/-- Modelled from the spec: `ArcBounds` (from `nextpnr.h`, outside the
provided sources) is an inclusive axis-aligned bounding box. -/
structure ArcBounds where
  x0 : Int
  y0 : Int
  x1 : Int
  y1 : Int
  deriving Repr, DecidableEq

/-- Modelled from the spec: `ArcBounds::extend(loc)` grows the box to contain
the location (the spec: "the bounding box as the union of the grid locations
of the driver bel (if any) and all sink bels"). -/
def ArcBounds.extend (bb : ArcBounds) (x y : Int) : ArcBounds :=
  ⟨min bb.x0 x, min bb.y0 y, max bb.x1 x, max bb.y1 y⟩

/-- `OcularRouter::PerNetData` without the `NetInfo*` back pointer.  The C++
field `bool undriven` has no initialiser and is only ever assigned in the
driverless branch, so for a driven net it holds an indeterminate value; this
is modelled as `Option Bool` with `none` for "never written". -/
structure PerNetData where
  bb : ArcBounds
  undriven : Option Bool
  fixed_routing : Bool
  deriving Repr, DecidableEq

/-- Lines 250-265 of `import_nets`: build the per-net data.  The initial
bounding box is the null space `(gridX-1, gridY-1, 0, 0)`; it is extended by
the driver's bel location if the driver cell exists (otherwise
`nd.undriven = true` is the only write to `undriven`), then by every user's
bel location; `fixed_routing` starts `false`. -/
def mkNetData (gridX gridY : Int) (n : NetInfo) : PerNetData :=
  let bb0 : ArcBounds := ⟨gridX - 1, gridY - 1, 0, 0⟩
  let start : ArcBounds × Option Bool :=
    match n.driver with
    | some (x, y) => (bb0.extend x y, none)
    | none => (bb0, some true)
  let bb1 := n.users.foldl (fun bb u => bb.extend u.ux u.uy) start.1
  ⟨bb1, start.2, false⟩

/-- `invalid_route`: some sink wire of the net is missing from `ni->wires`. -/
def netInvalidRoute (n : NetInfo) : Bool :=
  n.users.any fun u => (n.wires.lookup u.sinkWire).isNone

/-- The `fixed_routing` detection loop: some sink wire of the net is present
in `ni->wires` with strength greater than `STRENGTH_STRONG`.  Note that only
sink wires are inspected, not every binding of the net. -/
def netFixed (n : NetInfo) : Bool :=
  n.users.any fun u =>
    match n.wires.lookup u.sinkWire with
    | some s => decide (STRENGTH_STRONG < s)
    | none => false

/-- The aborts `import_nets` can take: `log_error` on locked-plus-incomplete
routing, the `NPNR_ASSERT(bound_count.at(idx) == 0)`, and an out-of-range
`wire_to_index.at` / `bound_count.at`. -/
inductive ImpErr where
  | fixedIncomplete
  | assertOverlap
  | badIndex
  deriving Repr, DecidableEq

/-- Decidable equality of `Except` results, used to evaluate the model on
concrete inputs. -/
instance {e a : Type} [DecidableEq e] [DecidableEq a] : DecidableEq (Except e a) := by
  intro x y
  cases x with
  | ok v =>
    cases y with
    | ok w =>
      exact decidable_of_iff (v = w)
        ⟨fun h => by rw [h], fun h => by injection h⟩
    | error f => exact isFalse (fun h => Except.noConfusion h)
  | error f =>
    cases y with
    | ok w => exact isFalse (fun h => Except.noConfusion h)
    | error f2 =>
      exact decidable_of_iff (f = f2)
        ⟨fun h => by rw [h], fun h => by injection h⟩

/-- The loop `for (auto &wire : ni->wires)` of the fixed-routing branch:
look the wire up in `wire_to_index` (throws `badIndex` when missing), assert
`bound_count.at(idx) == 0` (fails with `assertOverlap` otherwise) and
increment the `uint8_t` count. -/
def bumpFixedWires (w2i : List (Nat × Nat)) :
    List (Nat × Nat) → List Nat → Except ImpErr (List Nat)
  | [], bc => Except.ok bc
  | (wid, _s) :: rest, bc =>
    match w2i.lookup wid with
    | none => Except.error ImpErr.badIndex
    | some idx =>
      match bc.get? idx with
      | none => Except.error ImpErr.badIndex
      | some c =>
        if c = 0 then bumpFixedWires w2i rest (bc.set idx ((c + 1) % 256))
        else Except.error ImpErr.assertOverlap

/-- The outcome of processing one net.  The source computes `PerNetData nd`
but stores it nowhere (the local is dropped at the end of the loop body); it
is returned here so theorems can talk about it.  `ripped` records whether
`ctx->ripupNet` was called for the net. -/
structure ImportNetResult where
  nd : PerNetData
  bound_count : List Nat
  ripped : Bool
  deriving Repr, DecidableEq

/-- The body of the `import_nets` loop for one net. -/
def importOne (gridX gridY : Int) (w2i : List (Nat × Nat)) (bc : List Nat) (n : NetInfo) :
    Except ImpErr ImportNetResult :=
  let nd0 := mkNetData gridX gridY n
  if n.wires.isEmpty then Except.ok ⟨nd0, bc, false⟩
  else
    let fixed := netFixed n
    let nd : PerNetData := { nd0 with fixed_routing := fixed }
    if fixed then
      if netInvalidRoute n then Except.error ImpErr.fixedIncomplete
      else
        match bumpFixedWires w2i n.wires bc with
        | Except.ok bc1 => Except.ok ⟨nd, bc1, false⟩
        | Except.error e => Except.error e
    else Except.ok ⟨nd, bc, true⟩

/-- `OcularRouter::import_nets` over the name-sorted net list, threading
`bound_count` (the only router state the loop writes). -/
def import_nets (gridX gridY : Int) (w2i : List (Nat × Nat)) :
    List Nat → List NetInfo → Except ImpErr (List Nat)
  | bc, [] => Except.ok bc
  | bc, n :: ns =>
    match importOne gridX gridY w2i bc n with
    | Except.ok r => import_nets gridX gridY w2i r.bound_count ns
    | Except.error e => Except.error e

/-- The wire ids bound by a net. -/
def netWireIds (n : NetInfo) : List Nat := n.wires.map Prod.fst

/-- A net with a driver cell (at bel location `(1,1)`) and one sink. -/
def netDriven : NetInfo := ⟨some (1, 1), [⟨3, 2, 2⟩], []⟩

/-- The same net without a driver cell. -/
def netUndriven : NetInfo := ⟨none, [⟨3, 2, 2⟩], []⟩

/-- A net whose sink wire `0` is bound at exactly `STRENGTH_STRONG`, while a
second, non-sink wire `1` is bound more strongly (strength 4 >
`STRENGTH_STRONG`). -/
def netC3 : NetInfo := ⟨some (0, 0), [⟨0, 0, 0⟩], [(0, 2), (1, 4)]⟩

/-- A completely fixed net: its single sink wire `5` is bound at strength 4. -/
def netC3fixed : NetInfo := ⟨some (0, 0), [⟨5, 0, 0⟩], [(5, 4)]⟩

/-- `OcularRouter::operator()`: the body is exactly
`build_graph(); import_nets(); alloc_buffers(); return true;` -- no routing
loop, no iteration cap, no failure path exists in the source.  An abort
inside the phases is `none`; otherwise the returned `Bool` is the result. -/
def routerRun (a : Arch) (gx gy : Int) (nets : List NetInfo) : Option Bool :=
  match build_graph a with
  | none => none
  | some st =>
    match import_nets gx gy st.wire_to_index st.bound_count nets with
    | Except.error _ => none
    | Except.ok _ =>
      let _grid := alloc_grid2net st.width st.height
      some true

/-- `router_ocular(ctx)`: constructs the router and invokes `operator()`. -/
def router_ocular (a : Arch) (gx gy : Int) (nets : List NetInfo) : Option Bool :=
  routerRun a gx gy nets

/-- The S6 architecture: a single wire with no outgoing pips. -/
def archS6 : Arch :=
  { wires := [ { wid := 0, x0 := 0, y0 := 0, x1 := 0, y1 := 0, pipsDownhill := [] } ]
    wireAvail := fun _ => true
    wireDelayNS := fun _ => 0 }

/-- The S6 net: driven, with one sink, no pre-existing routing.  Its driver
wire has no outgoing edges, so the net is unroutable. -/
def netS6 : NetInfo := ⟨some (0, 0), [⟨0, 0, 0⟩], []⟩

/-- Pairwise disjointness of the wire sets of all fixed nets. -/
def FixedDisj (ns : List NetInfo) : Prop :=
  (ns.filter fun n => netFixed n).Pairwise fun n1 n2 => ∀ w ∈ netWireIds n1, w ∉ netWireIds n2

/-- No fixed net binds the same wire twice. -/
def FixedNodup (ns : List NetInfo) : Prop :=
  ∀ n ∈ ns, netFixed n = true → (netWireIds n).Nodup

instance (ns : List NetInfo) : Decidable (FixedDisj ns) := by
  rw [FixedDisj]
  infer_instance

instance (ns : List NetInfo) : Decidable (FixedNodup ns) := by
  rw [FixedNodup]
  infer_instance

/-- Two pipless wires for instantiating C10. -/
def wsC10 : List WireInfo :=
  [ ⟨0, 0, 0, 0, 0, []⟩, ⟨1, 0, 0, 0, 0, []⟩ ]

/-- A fixed net occupying wire 0. -/
def netC10a : NetInfo := ⟨some (0, 0), [⟨0, 0, 0⟩], [(0, 4)]⟩

/-- A fixed net occupying wire 1 (disjoint from `netC10a`). -/
def netC10b : NetInfo := ⟨some (0, 0), [⟨1, 0, 0⟩], [(1, 4)]⟩

/-- A second fixed net occupying wire 0 (overlapping `netC10a`). -/
def netC10c : NetInfo := ⟨some (0, 0), [⟨0, 0, 0⟩], [(0, 4)]⟩

/-! ## Theorems -/

theorem lookup_mem {l : List (Nat × Nat)} {k v : Nat} (h : l.lookup k = some v) :
    (k, v) ∈ l := by
  induction l with
  | nil => simp [List.lookup] at h
  | cons p t ih =>
    obtain ⟨k', v'⟩ := p
    rw [List.lookup] at h
    by_cases hk : k = k'
    · subst hk
      simp at h
      subst h
      exact List.mem_cons_self _ _
    · have hbeq : (k == k') = false := by
        exact beq_false_of_ne hk
      rw [hbeq] at h
      exact List.mem_cons_of_mem _ (ih h)

theorem wireIndexAux_snd_lt {ws : List WireInfo} :
    ∀ {i : Nat} {pr : Nat × Nat}, pr ∈ wireIndexAux ws i → pr.2 < i + ws.length := by
  induction ws with
  | nil => intro i pr h; simp [wireIndexAux] at h
  | cons w ws ih =>
    intro i pr h
    rw [wireIndexAux, List.mem_append] at h
    rcases h with h | h
    · have h2 := ih h
      simp only [List.length_cons]
      omega
    · simp at h
      subst h
      simp only [List.length_cons]
      omega

theorem wireIndexMap_snd_lt {ws : List WireInfo} {pr : Nat × Nat}
    (h : pr ∈ wireIndexMap ws) : pr.2 < ws.length := by
  rw [wireIndexMap] at h
  have h2 := wireIndexAux_snd_lt h
  simpa using h2

theorem edgesFor_dst_lt {a : Arch} {w2i : List (Nat × Nat)} {W : Nat}
    (hw : ∀ pr ∈ w2i, pr.2 < W) :
    ∀ {ps : List PipInfo} {es : List EdgeInfo}, edgesFor a w2i ps = some es →
      ∀ e ∈ es, e.dst < W := by
  intro ps
  induction ps with
  | nil =>
    intro es h e he
    rw [edgesFor] at h
    injection h with h
    subst h
    simp at he
  | cons p ps ih =>
    intro es h e he
    rw [edgesFor] at h
    cases hav : p.avail with
    | false =>
      simp only [hav, Bool.false_eq_true, if_false] at h
      exact ih h e he
    | true =>
      simp only [hav, if_true] at h
      cases hwav : a.wireAvail p.dst with
      | false =>
        simp only [hwav, Bool.false_eq_true, if_false] at h
        exact ih h e he
      | true =>
        simp only [hwav, if_true] at h
        cases hlk : w2i.lookup p.dst with
        | none => simp only [hlk] at h; exact Option.noConfusion h
        | some idx =>
          simp only [hlk] at h
          cases hrec : edgesFor a w2i ps with
          | none => simp only [hrec] at h; exact Option.noConfusion h
          | some rest =>
            simp only [hrec] at h
            injection h with h
            subst h
            rcases List.mem_cons.mp he with he | he
            · subst he
              exact hw _ (lookup_mem hlk)
            · exact ih hrec e he

theorem buildCSR_spec {a : Arch} {w2i : List (Nat × Nat)} :
    ∀ {ws : List WireInfo} {c : Nat} {offs : List Nat} {es : List EdgeInfo},
      buildCSR a w2i ws c = some (offs, es) →
      offs.length = ws.length + 1 ∧ offs.get? 0 = some c ∧
      offs.get? ws.length = some (c + es.length) ∧
      offs.Chain' (fun m n => m ≤ n) := by
  intro ws
  induction ws with
  | nil =>
    intro c offs es h
    rw [buildCSR] at h
    injection h with h
    injection h with h1 h2
    subst h1
    subst h2
    simp
  | cons w ws ih =>
    intro c offs es h
    rw [buildCSR] at h
    cases hes : edgesFor a w2i w.pipsDownhill with
    | none => simp only [hes] at h; exact Option.noConfusion h
    | some es1 =>
      simp only [hes] at h
      cases hrec : buildCSR a w2i ws (c + es1.length) with
      | none => simp only [hrec] at h; exact Option.noConfusion h
      | some pr =>
        obtain ⟨offs1, rest⟩ := pr
        simp only [hrec] at h
        injection h with h
        injection h with h1 h2
        subst h1
        subst h2
        obtain ⟨ihl, ihh, ihlast, ihchain⟩ := ih hrec
        refine ⟨by simp [ihl], by simp, ?_, ?_⟩
        · have hstep : (c :: offs1).get? (ws.length + 1) = offs1.get? ws.length := rfl
          simp only [List.length_cons, hstep, ihlast, List.length_append]
          congr 1
          omega
        · rw [List.chain'_cons']
          refine ⟨?_, ihchain⟩
          intro b hb
          cases offs1 with
          | nil => simp at ihh
          | cons x t =>
            simp at hb
            have hx : x = c + es1.length := by
              have h0 := ihh
              simp at h0
              exact h0
            omega

theorem buildCSR_dst_lt {a : Arch} {w2i : List (Nat × Nat)} {W : Nat}
    (hw : ∀ pr ∈ w2i, pr.2 < W) :
    ∀ {ws : List WireInfo} {c : Nat} {offs : List Nat} {es : List EdgeInfo},
      buildCSR a w2i ws c = some (offs, es) → ∀ e ∈ es, e.dst < W := by
  intro ws
  induction ws with
  | nil =>
    intro c offs es h e he
    rw [buildCSR] at h
    injection h with h
    injection h with h1 h2
    subst h2
    simp at he
  | cons w ws ih =>
    intro c offs es h e he
    rw [buildCSR] at h
    cases hes : edgesFor a w2i w.pipsDownhill with
    | none => simp only [hes] at h; exact Option.noConfusion h
    | some es1 =>
      simp only [hes] at h
      cases hrec : buildCSR a w2i ws (c + es1.length) with
      | none => simp only [hrec] at h; exact Option.noConfusion h
      | some pr =>
        obtain ⟨offs1, rest⟩ := pr
        simp only [hrec] at h
        injection h with h
        injection h with h1 h2
        subst h2
        rcases List.mem_append.mp he with he | he
        · exact edgesFor_dst_lt hw hes e he
        · exact ih hrec e he

/-- C1 -- CSR well-formedness: after `build_graph` completes, `adj_offset[0] = 0`,
`adj_offset` is non-decreasing, `adj_offset[W]` equals the length of the edge
destination list (`W` being the number of imported wires, with
`adj_offset` having exactly `W + 1` entries), and every entry of
`edge_dst_index` lies in `[0, W)`. -/
theorem C1_csr_wellformed (a : Arch) (st : GraphState) (h : build_graph a = some st) :
    st.adj_offset.get? 0 = some 0 ∧
    st.adj_offset.Chain' (fun m n => m ≤ n) ∧
    st.adj_offset.get? a.wires.length = some st.edge_dst_index.length ∧
    st.adj_offset.length = a.wires.length + 1 ∧
    ∀ e ∈ st.edge_dst_index, e < a.wires.length := by
  rw [build_graph] at h
  cases hcsr : buildCSR a (wireIndexMap a.wires) a.wires 0 with
  | none => rw [hcsr] at h; cases h
  | some pr =>
    obtain ⟨offs, es⟩ := pr
    rw [hcsr] at h
    injection h with h
    subst h
    obtain ⟨hl, hh, hlast, hchain⟩ := buildCSR_spec hcsr
    have hdst : ∀ e ∈ es, e.dst < a.wires.length :=
      buildCSR_dst_lt (fun pr hpr => wireIndexMap_snd_lt hpr) hcsr
    refine ⟨hh, hchain, ?_, hl, ?_⟩
    · simpa [GraphState.edge_dst_index] using hlast
    · intro e he
      simp only [GraphState.edge_dst_index, List.mem_map] at he
      obtain ⟨ei, hei, rfl⟩ := he
      exact hdst ei hei

theorem build_graph_archA : build_graph archA = some stA := by
  norm_num [build_graph, buildCSR, edgesFor, edgeCost, cTrunc, wireIndexMap, wireIndexAux,
    archA, stA, delay_scale, gridWidth, gridHeight, inf_cost, List.lookup]
  refine ⟨⟨by decide, by decide⟩, by decide, by decide, by decide⟩

/-- Witness for C1: the well-formedness conclusions hold on the concrete
architecture `archA`. -/
theorem C1_csr_wellformed_witness :
    build_graph archA = some stA ∧
    (stA.adj_offset.get? 0 = some 0 ∧
     stA.adj_offset.Chain' (fun m n => m ≤ n) ∧
     stA.adj_offset.get? archA.wires.length = some stA.edge_dst_index.length ∧
     stA.adj_offset.length = archA.wires.length + 1 ∧
     ∀ e ∈ stA.edge_dst_index, e < archA.wires.length) :=
  ⟨build_graph_archA, C1_csr_wellformed archA stA build_graph_archA⟩

theorem edgesFor_cost {a : Arch} {w2i : List (Nat × Nat)} :
    ∀ {ps : List PipInfo} {es : List EdgeInfo}, edgesFor a w2i ps = some es →
      ∀ e ∈ es, ∃ p ∈ ps, p.avail = true ∧ a.wireAvail p.dst = true ∧
        e.cost = cTrunc ((p.delayNS + a.wireDelayNS p.dst) * delay_scale) := by
  intro ps
  induction ps with
  | nil =>
    intro es h e he
    rw [edgesFor] at h
    injection h with h
    subst h
    simp at he
  | cons p ps ih =>
    intro es h e he
    rw [edgesFor] at h
    cases hav : p.avail with
    | false =>
      simp only [hav, Bool.false_eq_true, if_false] at h
      obtain ⟨q, hq, hrest⟩ := ih h e he
      exact ⟨q, List.mem_cons_of_mem _ hq, hrest⟩
    | true =>
      simp only [hav, if_true] at h
      cases hwav : a.wireAvail p.dst with
      | false =>
        simp only [hwav, Bool.false_eq_true, if_false] at h
        obtain ⟨q, hq, hrest⟩ := ih h e he
        exact ⟨q, List.mem_cons_of_mem _ hq, hrest⟩
      | true =>
        simp only [hwav, if_true] at h
        cases hlk : w2i.lookup p.dst with
        | none => simp only [hlk] at h; exact Option.noConfusion h
        | some idx =>
          simp only [hlk] at h
          cases hrec : edgesFor a w2i ps with
          | none => simp only [hrec] at h; exact Option.noConfusion h
          | some rest =>
            simp only [hrec] at h
            injection h with h
            subst h
            rcases List.mem_cons.mp he with he | he
            · subst he
              exact ⟨p, List.mem_cons_self _ _, hav, hwav, rfl⟩
            · obtain ⟨q, hq, hrest⟩ := ih hrec e he
              exact ⟨q, List.mem_cons_of_mem _ hq, hrest⟩

theorem buildCSR_cost {a : Arch} {w2i : List (Nat × Nat)} :
    ∀ {ws : List WireInfo} {c : Nat} {offs : List Nat} {es : List EdgeInfo},
      buildCSR a w2i ws c = some (offs, es) →
      ∀ e ∈ es, ∃ w ∈ ws, ∃ p ∈ w.pipsDownhill, p.avail = true ∧ a.wireAvail p.dst = true ∧
        e.cost = cTrunc ((p.delayNS + a.wireDelayNS p.dst) * delay_scale) := by
  intro ws
  induction ws with
  | nil =>
    intro c offs es h e he
    rw [buildCSR] at h
    injection h with h
    injection h with h1 h2
    subst h2
    simp at he
  | cons w ws ih =>
    intro c offs es h e he
    rw [buildCSR] at h
    cases hes : edgesFor a w2i w.pipsDownhill with
    | none => simp only [hes] at h; exact Option.noConfusion h
    | some es1 =>
      simp only [hes] at h
      cases hrec : buildCSR a w2i ws (c + es1.length) with
      | none => simp only [hrec] at h; exact Option.noConfusion h
      | some pr =>
        obtain ⟨offs1, rest⟩ := pr
        simp only [hrec] at h
        injection h with h
        injection h with h1 h2
        subst h2
        rcases List.mem_append.mp he with he | he
        · obtain ⟨p, hp, hrest⟩ := edgesFor_cost hes e he
          exact ⟨w, List.mem_cons_self _ _, p, hp, hrest⟩
        · obtain ⟨w1, hw1, hrest⟩ := ih hrec e he
          exact ⟨w1, List.mem_cons_of_mem _ hw1, hrest⟩

/-- C2, amended -- edge cost formula: every edge appended by `build_graph`
stores the cost `int((delay_ns(p) + delay_ns(dst_wire)) * DELAY_SCALE)` with
`DELAY_SCALE = 1000`, where `int(...)` is the C++ cast, i.e. truncation
towards zero -- not `round(...)` as the claim states. -/
theorem C2_edge_cost_truncated (a : Arch) (st : GraphState) (h : build_graph a = some st) :
    ∀ e ∈ st.edges, ∃ w ∈ a.wires, ∃ p ∈ w.pipsDownhill,
      p.avail = true ∧ a.wireAvail p.dst = true ∧
      e.cost = cTrunc ((p.delayNS + a.wireDelayNS p.dst) * delay_scale) := by
  rw [build_graph] at h
  cases hcsr : buildCSR a (wireIndexMap a.wires) a.wires 0 with
  | none => rw [hcsr] at h; cases h
  | some pr =>
    obtain ⟨offs, es⟩ := pr
    rw [hcsr] at h
    injection h with h
    subst h
    exact buildCSR_cost hcsr

/-- Witness for C2 (amended), on the concrete architecture `archA`. -/
theorem C2_edge_cost_truncated_witness :
    build_graph archA = some stA ∧
    ∀ e ∈ stA.edges, ∃ w ∈ archA.wires, ∃ p ∈ w.pipsDownhill,
      p.avail = true ∧ archA.wireAvail p.dst = true ∧
      e.cost = cTrunc ((p.delayNS + archA.wireDelayNS p.dst) * delay_scale) :=
  ⟨build_graph_archA, C2_edge_cost_truncated archA stA build_graph_archA⟩

theorem build_graph_archC2 : build_graph archC2 = some stC2 := by
  norm_num [build_graph, buildCSR, edgesFor, edgeCost, cTrunc, wireIndexMap, wireIndexAux,
    archC2, stC2, delay_scale, gridWidth, gridHeight, inf_cost, List.lookup]

/-- C2 counterexample: on `archC2` the stored edge cost is `1`, but the
claimed formula `round((delay_ns(p) + delay_ns(dst_wire)) * 1000)` gives `2`. -/
theorem C2_round_counterexample :
    Option.map GraphState.edge_cost (build_graph archC2) = some [1] ∧
    cRound (((1:ℚ)/512 + 0) * delay_scale) = 2 ∧ (1 : Int) ≠ 2 := by
  refine ⟨?_, ?_, by decide⟩
  · rw [build_graph_archC2]
    decide
  · rw [cRound, if_pos (by norm_num [delay_scale])]
    rw [show ((1:ℚ)/512 + 0) * delay_scale + 1/2 = 157/64 by norm_num [delay_scale]]
    rw [Int.floor_eq_iff]
    norm_num

/-- C4 -- the claim asserts that immediately after `alloc_buffers` every cell
of `grid2net` holds `-1`; in the code `grid2net.resize(width * height)`
value-initialises every cell to `0`, which is a valid slot id (slot 0), so the
claimed initial state is wrong (and with it the claimed reachable-state
invariant, which at this state would require slot 0 to be occupied by a net).
This theorem evaluates the allocation at concrete failing inputs. -/
theorem C4_grid2net_zero_initialised :
    alloc_grid2net 1 1 = [0] ∧
    alloc_grid2net 3 2 = [0, 0, 0, 0, 0, 0] ∧
    ((0 : Int) = -1 → False) := by
  decide

theorem checkRow_spec (g : List Int) (W v y : Int) :
    ∀ (n : Nat) (x : Int), (∀ k : Nat, k < n → 0 ≤ x + k ∧ x + k < W) →
      checkRow g W v y x n =
        some (decide (∀ k : Nat, k < n → g.getD (y * W + (x + k)).toNat 0 = v)) := by
  intro n
  induction n with
  | zero => intro x hb; simp [checkRow]
  | succ n ih =>
    intro x hb
    rw [checkRow]
    have hx : 0 ≤ x ∧ x < W := by have := hb 0 (Nat.succ_pos n); simpa using this
    rw [if_pos hx]
    by_cases hc : g.getD (y * W + x).toNat 0 = v
    · rw [if_pos hc, ih (x + 1) (fun k hk => by
        have := hb (k + 1) (by omega)
        push_cast at this ⊢
        omega)]
      congr 1
      rw [decide_eq_decide]
      constructor
      · intro hA k hk
        match k with
        | 0 => simpa using hc
        | Nat.succ k =>
          have hidx : y * W + (x + ((Nat.succ k : Nat) : Int)) = y * W + ((x + 1) + (k : Int)) := by
            push_cast
            ring
          rw [hidx]
          exact hA k (by omega)
      · intro hB k hk
        have hidx : y * W + ((x + 1) + (k : Int)) = y * W + (x + ((k + 1 : Nat) : Int)) := by
          push_cast
          ring
        rw [hidx]
        exact hB (k + 1) (by omega)
    · rw [if_neg hc]
      congr 1
      symm
      rw [decide_eq_false_iff_not]
      intro hB
      exact hc (by simpa using hB 0 (Nat.succ_pos n))

theorem checkRows_spec (g : List Int) (W H v x0 x1 : Int) :
    ∀ (n : Nat) (y : Int),
      (∀ k : Nat, k < n → 0 ≤ y + k ∧ y + k < H) →
      (∀ x : Int, x0 ≤ x → x ≤ x1 → 0 ≤ x ∧ x < W) →
      checkRows g W H v x0 x1 y n =
        some (decide (∀ k : Nat, k < n → ∀ j : Nat, j < (x1 + 1 - x0).toNat →
          g.getD ((y + k) * W + (x0 + j)).toNat 0 = v)) := by
  intro n
  induction n with
  | zero => intro y hyb hx; simp [checkRows]
  | succ n ih =>
    intro y hyb hx
    rw [checkRows]
    have hy0 : 0 ≤ y ∧ y < H := by have := hyb 0 (Nat.succ_pos n); simpa using this
    rw [if_pos hy0]
    rw [checkRow_spec g W v y ((x1 + 1 - x0).toNat) x0 (fun j hj => by
      have := hx (x0 + (j : Int)) (by omega) (by omega)
      exact this)]
    by_cases hrp : ∀ j : Nat, j < (x1 + 1 - x0).toNat → g.getD (y * W + (x0 + j)).toNat 0 = v
    · rw [decide_eq_true hrp]
      dsimp only
      rw [ih (y + 1) (fun k hk => by
        have := hyb (k + 1) (by omega)
        push_cast at this ⊢
        omega) hx]
      congr 1
      rw [decide_eq_decide]
      constructor
      · intro hA k hk j hj
        match k with
        | 0 => simpa using hrp j hj
        | Nat.succ k =>
          have hidx : (y + ((Nat.succ k : Nat) : Int)) * W = ((y + 1) + (k : Int)) * W := by
            push_cast
            ring
          rw [hidx]
          exact hA k (by omega) j hj
      · intro hB k hk j hj
        have hidx : ((y + 1) + (k : Int)) * W = (y + ((k + 1 : Nat) : Int)) * W := by
          push_cast
          ring
        rw [hidx]
        exact hB (k + 1) (by omega) j hj
    · rw [decide_eq_false hrp]
      dsimp only
      congr 1
      symm
      rw [decide_eq_false_iff_not]
      intro hB
      exact hrp (fun j hj => by simpa using hB 0 (Nat.succ_pos n) j hj)

/-- C5, amended -- `check_region` correctness: for every bounding box such
that every `y` in `[y0, y1]` lies in `[0, height)` (this is required even
when the `x` range `[x0, x1]` is empty, because the source asserts on `y`
before entering the inner loop) and, when the `y` range is non-empty, every
`x` in `[x0, x1]` lies in `[0, width)`, `check_region` returns (without any
assertion firing) `true` iff every cell of the rectangle equals `v`,
vacuously `true` for an empty rectangle; it reads but never writes
`grid2net` (the model takes the grid by value and returns only the `Bool`,
mirroring that the source only reads it). -/
theorem C5_check_region (g : List Int) (W H x0 y0 x1 y1 v : Int)
    (hy : ∀ y : Int, y0 ≤ y → y ≤ y1 → 0 ≤ y ∧ y < H)
    (hx : y0 ≤ y1 → ∀ x : Int, x0 ≤ x → x ≤ x1 → 0 ≤ x ∧ x < W) :
    ∃ b : Bool, check_region g W H x0 y0 x1 y1 v = some b ∧
      (b = true ↔ ∀ x y : Int, x0 ≤ x → x ≤ x1 → y0 ≤ y → y ≤ y1 →
        g.getD (y * W + x).toNat 0 = v) := by
  by_cases hy01 : y0 ≤ y1
  · have hspec := checkRows_spec g W H v x0 x1 ((y1 + 1 - y0).toNat) y0
      (fun k hk => hy (y0 + (k : Int)) (by omega) (by omega)) (hx hy01)
    refine ⟨_, hspec, ?_⟩
    rw [decide_eq_true_eq]
    constructor
    · intro hP x y hxa hxb hya hyb
      have hk : (y - y0).toNat < (y1 + 1 - y0).toNat := by omega
      have hj : (x - x0).toNat < (x1 + 1 - x0).toNat := by omega
      have hres := hP _ hk _ hj
      have e1 : y0 + (((y - y0).toNat : Nat) : Int) = y := by
        rw [Int.toNat_of_nonneg (by omega)]
        ring
      have e2 : x0 + (((x - x0).toNat : Nat) : Int) = x := by
        rw [Int.toNat_of_nonneg (by omega)]
        ring
      rw [e1, e2] at hres
      exact hres
    · intro hP k hk j hj
      exact hP (x0 + (j : Int)) (y0 + (k : Int)) (by omega) (by omega) (by omega) (by omega)
  · refine ⟨true, ?_, ?_⟩
    · have hn : (y1 + 1 - y0).toNat = 0 := by omega
      rw [check_region, hn]
      rfl
    · constructor
      · intro _ x y _ _ hya hyb
        omega
      · intro _
        rfl

/-- C5 counterexample: the claim as stated also covers boxes with an empty
`x` range but a non-empty out-of-bounds `y` range (such a box iterates no
cells, so the claim's precondition is vacuous and it promises `true`); on the
1x1 grid with the box `x0 = 1, y0 = 1, x1 = 0, y1 = 1` the source instead
fails the `y` assertion (modelled as `none`). -/
theorem C5_assert_counterexample :
    check_region [0] 1 1 1 1 0 1 (-1) = none ∧ ¬ (1 : Int) ≤ 0 := by
  constructor
  · rfl
  · decide

/-- Witness for C5 (amended), on a concrete 2x2 grid. -/
theorem C5_check_region_witness :
    (∀ y : Int, 0 ≤ y → y ≤ 0 → 0 ≤ y ∧ y < 2) ∧
    ((0 : Int) ≤ 0 → ∀ x : Int, 0 ≤ x → x ≤ 1 → 0 ≤ x ∧ x < 2) ∧
    ∃ b : Bool, check_region [-1, -1, 5, -1] 2 2 0 0 1 0 (-1) = some b ∧
      (b = true ↔ ∀ x y : Int, 0 ≤ x → x ≤ 1 → 0 ≤ y → y ≤ 0 →
        ([-1, -1, 5, -1] : List Int).getD (y * 2 + x).toNat 0 = -1) :=
  ⟨fun y h1 h2 => by omega, fun _ x h1 h2 => by omega,
   C5_check_region [-1, -1, 5, -1] 2 2 0 0 1 0 (-1)
     (fun y h1 h2 => by omega) (fun _ x h1 h2 => by omega)⟩

theorem cell_lt {x y W H : Int} (hx0 : 0 ≤ x) (hx1 : x < W) (hy0 : 0 ≤ y) (hy1 : y < H) :
    y * W + x < W * H := by
  nlinarith

theorem markRow_spec (W v y : Int) (hyW : 0 ≤ y * W) :
    ∀ (n : Nat) (x : Int) (g : List Int),
      (∀ k : Nat, k < n → 0 ≤ x + k ∧ x + k < W) →
      (∀ k : Nat, k < n → (y * W + (x + k)).toNat < g.length) →
      ∃ g1, markRow W v y g x n = some g1 ∧
        g1.length = g.length ∧
        (∀ k : Nat, k < n → g1.get? (y * W + (x + k)).toNat = some v) ∧
        (∀ idx : Nat, (∀ k : Nat, k < n → (y * W + (x + k)).toNat ≠ idx) →
          g1.get? idx = g.get? idx) := by
  intro n
  induction n with
  | zero =>
    intro x g hb hl
    exact ⟨g, rfl, rfl, fun k hk => absurd hk (Nat.not_lt_zero k), fun idx _ => rfl⟩
  | succ n ih =>
    intro x g hb hl
    rw [markRow]
    have hx : 0 ≤ x ∧ x < W := by have := hb 0 (Nat.succ_pos n); simpa using this
    rw [if_pos hx]
    have hb0 : (y * W + x).toNat < g.length := by
      have := hl 0 (Nat.succ_pos n)
      simpa using this
    obtain ⟨g1, hg1, hlen1, htouch, hframe⟩ := ih (x + 1) (g.set (y * W + x).toNat v)
      (fun k hk => by
        have := hb (k + 1) (by omega)
        push_cast at this ⊢
        omega)
      (fun k hk => by
        have hshift := hl (k + 1) (by omega)
        rw [List.length_set]
        have hidx : y * W + ((x + 1) + (k : Int)) = y * W + (x + ((k + 1 : Nat) : Int)) := by
          push_cast
          ring
        rw [hidx]
        exact hshift)
    refine ⟨g1, hg1, by rw [hlen1, List.length_set], ?_, ?_⟩
    · intro k hk
      match k with
      | 0 =>
        have hidx0 : (y * W + (x + ((0 : Nat) : Int))).toNat = (y * W + x).toNat := by norm_num
        rw [hidx0]
        have hne : ∀ k : Nat, k < n → (y * W + ((x + 1) + (k : Int))).toNat ≠ (y * W + x).toNat := by
          intro k hk
          have hx1 := hx.1
          omega
        rw [hframe _ hne]
        exact List.get?_set_eq_of_lt v hb0
      | Nat.succ k =>
        have hidx : y * W + (x + ((Nat.succ k : Nat) : Int)) = y * W + ((x + 1) + (k : Int)) := by
          push_cast
          ring
        rw [hidx]
        exact htouch k (by omega)
    · intro idx hidx
      have hrest : ∀ k : Nat, k < n → (y * W + ((x + 1) + (k : Int))).toNat ≠ idx := by
        intro k hk
        have := hidx (k + 1) (by omega)
        have he : y * W + ((x + 1) + (k : Int)) = y * W + (x + ((k + 1 : Nat) : Int)) := by
          push_cast
          ring
        rw [he]
        exact this
      rw [hframe idx hrest]
      refine List.get?_set_ne v g ?_
      have := hidx 0 (Nat.succ_pos n)
      simpa using this

theorem markRows_spec (W H v x0 x1 : Int) :
    ∀ (n : Nat) (y : Int) (g : List Int),
      (∀ k : Nat, k < n → 0 ≤ y + k ∧ y + k < H) →
      (∀ x : Int, x0 ≤ x → x ≤ x1 → 0 ≤ x ∧ x < W) →
      g.length = (W * H).toNat →
      ∃ g1, markRows W H v x0 x1 g y n = some g1 ∧
        g1.length = g.length ∧
        (∀ k : Nat, k < n → ∀ j : Nat, j < (x1 + 1 - x0).toNat →
          g1.get? ((y + k) * W + (x0 + j)).toNat = some v) ∧
        (∀ idx : Nat,
          (∀ k : Nat, k < n → ∀ j : Nat, j < (x1 + 1 - x0).toNat →
            ((y + k) * W + (x0 + j)).toNat ≠ idx) →
          g1.get? idx = g.get? idx) := by
  intro n
  induction n with
  | zero =>
    intro y g hyb hx hlen
    exact ⟨g, rfl, rfl, fun k hk => absurd hk (Nat.not_lt_zero k), fun idx _ => rfl⟩
  | succ n ih =>
    intro y g hyb hx hlen
    rw [markRows]
    have hy0 : 0 ≤ y ∧ y < H := by have := hyb 0 (Nat.succ_pos n); simpa using this
    rw [if_pos hy0]
    by_cases hM : (x1 + 1 - x0).toNat = 0
    · -- empty row: markRow runs zero iterations
      rw [hM, markRow]
      obtain ⟨g1, hg1, hlen1, htouch, hframe⟩ := ih (y + 1) g
        (fun k hk => by
          have := hyb (k + 1) (by omega)
          push_cast at this ⊢
          omega) hx hlen
      refine ⟨g1, hg1, hlen1, ?_, ?_⟩
      · intro k hk j hj
        exact absurd hj (Nat.not_lt_zero j)
      · intro idx hidx
        refine hframe idx (fun k hk j hj => ?_)
        rw [hM] at hj
        exact absurd hj (Nat.not_lt_zero j)
    · -- non-empty row: 0 < W and the row indices are in bounds
      have hx01 : x0 ≤ x1 := by omega
      have hW : 0 ≤ x0 ∧ x0 < W := hx x0 le_rfl hx01
      have hyW : 0 ≤ y * W := mul_nonneg hy0.1 (by omega)
      obtain ⟨g2, hg2, hlen2, htouch2, hframe2⟩ := markRow_spec W v y hyW
        ((x1 + 1 - x0).toNat) x0 g
        (fun j hj => hx (x0 + (j : Int)) (by omega) (by omega))
        (fun j hj => by
          have hc := @cell_lt (x0 + (j : Int)) y W H
            (by omega) (by have := hx (x0 + (j : Int)) (by omega) (by omega); omega)
            hy0.1 hy0.2
          rw [hlen]
          omega)
      rw [hg2]
      obtain ⟨g1, hg1, hlen1, htouch, hframe⟩ := ih (y + 1) g2
        (fun k hk => by
          have := hyb (k + 1) (by omega)
          push_cast at this ⊢
          omega) hx (by rw [hlen2, hlen])
      refine ⟨g1, hg1, by rw [hlen1, hlen2], ?_, ?_⟩
      · intro k hk j hj
        match k with
        | 0 =>
          -- cells of the first row, preserved by all later rows
          have hrow := htouch2 j hj
          have he0 : (y + ((0 : Nat) : Int)) * W = y * W := by norm_num
          rw [he0]
          have hxj := hx (x0 + (j : Int)) (by omega) (by omega)
          have hne : ∀ k : Nat, k < n → ∀ j2 : Nat, j2 < (x1 + 1 - x0).toNat →
              (((y + 1) + (k : Int)) * W + (x0 + (j2 : Int))).toNat ≠
                (y * W + (x0 + (j : Int))).toNat := by
            intro k hk j2 hj2
            have hxj2 := hx (x0 + (j2 : Int)) (by omega) (by omega)
            have hexp : ((y + 1) + (k : Int)) * W = y * W + W + (k : Int) * W := by ring
            have hkW : 0 ≤ (k : Int) * W := mul_nonneg (by positivity) (by omega)
            rw [hexp]
            omega
          rw [hframe _ hne]
          exact hrow
        | Nat.succ k =>
          have he : (y + ((Nat.succ k : Nat) : Int)) * W = ((y + 1) + (k : Int)) * W := by
            push_cast
            ring
          rw [he]
          exact htouch k (by omega) j hj
      · intro idx hidx
        have h1 : g1.get? idx = g2.get? idx := by
          refine hframe idx (fun k hk j hj => ?_)
          have := hidx (k + 1) (by omega) j hj
          have he : ((y + 1) + (k : Int)) * W = (y + ((k + 1 : Nat) : Int)) * W := by
            push_cast
            ring
          rw [he]
          exact this
        have h2 : g2.get? idx = g.get? idx := by
          refine hframe2 idx (fun j hj => ?_)
          have := hidx 0 (Nat.succ_pos n) j hj
          have he : y * W = (y + ((0 : Nat) : Int)) * W := by norm_num
          rw [he]
          exact this
        rw [h1, h2]

/-- C6, amended -- `mark_region` effect and frame: for every bounding box such
that every `y` in `[y0, y1]` lies in `[0, height)` (required even when the
`x` range is empty, because the source asserts on `y` before entering the
inner loop) and, when the `y` range is non-empty, every `x` in `[x0, x1]`
lies in `[0, width)`, `mark_region` completes without an assertion firing,
every cell of the rectangle afterwards equals `v`, and every other cell of
`grid2net` holds exactly the value it held before; the source writes only
`grid2net`, which the model mirrors by acting on the grid alone. -/
theorem C6_mark_region (g : List Int) (W H x0 y0 x1 y1 v : Int)
    (hy : ∀ y : Int, y0 ≤ y → y ≤ y1 → 0 ≤ y ∧ y < H)
    (hx : y0 ≤ y1 → ∀ x : Int, x0 ≤ x → x ≤ x1 → 0 ≤ x ∧ x < W)
    (hlen : g.length = (W * H).toNat) :
    ∃ g1, mark_region g W H x0 y0 x1 y1 v = some g1 ∧
      g1.length = g.length ∧
      (∀ x y : Int, x0 ≤ x → x ≤ x1 → y0 ≤ y → y ≤ y1 →
        g1.get? (y * W + x).toNat = some v) ∧
      (∀ idx : Nat,
        (∀ x y : Int, x0 ≤ x → x ≤ x1 → y0 ≤ y → y ≤ y1 → (y * W + x).toNat ≠ idx) →
        g1.get? idx = g.get? idx) := by
  by_cases hy01 : y0 ≤ y1
  · obtain ⟨g1, hg1, hlen1, htouch, hframe⟩ := markRows_spec W H v x0 x1
      ((y1 + 1 - y0).toNat) y0 g
      (fun k hk => hy (y0 + (k : Int)) (by omega) (by omega)) (hx hy01) hlen
    refine ⟨g1, hg1, hlen1, ?_, ?_⟩
    · intro x y hxa hxb hya hyb
      have hk : (y - y0).toNat < (y1 + 1 - y0).toNat := by omega
      have hj : (x - x0).toNat < (x1 + 1 - x0).toNat := by omega
      have hres := htouch _ hk _ hj
      have e1 : y0 + (((y - y0).toNat : Nat) : Int) = y := by
        rw [Int.toNat_of_nonneg (by omega)]
        ring
      have e2 : x0 + (((x - x0).toNat : Nat) : Int) = x := by
        rw [Int.toNat_of_nonneg (by omega)]
        ring
      rw [e1, e2] at hres
      exact hres
    · intro idx hidx
      exact hframe idx (fun k hk j hj =>
        hidx (x0 + (j : Int)) (y0 + (k : Int)) (by omega) (by omega) (by omega) (by omega))
  · have hn : (y1 + 1 - y0).toNat = 0 := by omega
    refine ⟨g, ?_, rfl, ?_, fun idx _ => rfl⟩
    · rw [mark_region, hn]
      rfl
    · intro x y _ _ hya hyb
      omega

/-- C6 counterexample: a box with an empty `x` range but a non-empty
out-of-bounds `y` range contains no cells, so it satisfies the claim's
"cells lie inside the grid" precondition vacuously and the claim promises a
completed, unchanged state; the source instead fails the `y` assertion
(modelled as `none`). -/
theorem C6_assert_counterexample :
    mark_region [0] 1 1 1 1 0 1 5 = none ∧ ¬ (1 : Int) ≤ 0 := by
  constructor
  · rfl
  · decide

/-- Witness for C6 (amended), on a concrete 2x2 grid. -/
theorem C6_mark_region_witness :
    (∀ y : Int, 0 ≤ y → y ≤ 0 → 0 ≤ y ∧ y < 2) ∧
    ((0 : Int) ≤ 0 → ∀ x : Int, 0 ≤ x → x ≤ 1 → 0 ≤ x ∧ x < 2) ∧
    ([(-1 : Int), -1, -1, -1] : List Int).length = ((2 : Int) * 2).toNat ∧
    ∃ g1, mark_region [-1, -1, -1, -1] 2 2 0 0 1 0 3 = some g1 ∧
      g1.length = ([(-1 : Int), -1, -1, -1] : List Int).length ∧
      (∀ x y : Int, 0 ≤ x → x ≤ 1 → 0 ≤ y → y ≤ 0 →
        g1.get? (y * 2 + x).toNat = some 3) ∧
      (∀ idx : Nat,
        (∀ x y : Int, 0 ≤ x → x ≤ 1 → 0 ≤ y → y ≤ 0 → (y * 2 + x).toNat ≠ idx) →
        g1.get? idx = ([(-1 : Int), -1, -1, -1] : List Int).get? idx) :=
  ⟨fun y h1 h2 => by omega, fun _ x h1 h2 => by omega, by decide,
   C6_mark_region [-1, -1, -1, -1] 2 2 0 0 1 0 3
     (fun y h1 h2 => by omega) (fun _ x h1 h2 => by omega) (by decide)⟩

theorem psGo_spec :
    ∀ (l : List Nat) (n : Nat) (sum : Nat), sum < U32 → n ≤ l.length →
      ∃ l1 r, psGo sum l n = some (l1, r) ∧
        l1.length = l.length ∧
        (∀ i : Nat, i < n → l1.get? i = some ((sum + (l.take (i + 1)).sum) % U32)) ∧
        (∀ i : Nat, n ≤ i → l1.get? i = l.get? i) ∧
        r = (sum + (l.take n).sum) % U32 := by
  intro l
  induction l with
  | nil =>
    intro n sum hs hn
    have hn0 : n = 0 := by simpa using hn
    subst hn0
    refine ⟨[], sum, rfl, rfl, fun i hi => absurd hi (Nat.not_lt_zero i), fun i _ => rfl, ?_⟩
    simp [Nat.mod_eq_of_lt hs]
  | cons x xs ih =>
    intro n sum hs hn
    cases n with
    | zero =>
      refine ⟨x :: xs, sum, rfl, rfl, fun i hi => absurd hi (Nat.not_lt_zero i),
        fun i _ => rfl, ?_⟩
      simp [Nat.mod_eq_of_lt hs]
    | succ n =>
      have hn' : n ≤ xs.length := by simpa using hn
      obtain ⟨l1, r, hrec, hlen, htouch, hskip, hr⟩ :=
        ih n ((sum + x) % U32) (Nat.mod_lt _ (by decide)) hn'
      refine ⟨(sum + x) % U32 :: l1, r, ?_, by simp [hlen], ?_, ?_, ?_⟩
      · rw [psGo, hrec]
      · intro i hi
        match i with
        | 0 => simp
        | Nat.succ i =>
          have hstep : ((sum + x) % U32 :: l1).get? (Nat.succ i) = l1.get? i := rfl
          rw [hstep, htouch i (by omega)]
          congr 1
          rw [Nat.mod_add_mod, List.take_succ_cons, List.sum_cons, Nat.add_assoc]
      · intro i hi
        match i with
        | Nat.succ i => exact hskip i (by omega)
      · rw [hr, Nat.mod_add_mod, List.take_succ_cons, List.sum_cons, Nat.add_assoc]

/-- C7 -- `prefix_sum` correctness: for every buffer and count `n` no larger
than the buffer's length, the first `n` entries are rewritten to the
inclusive prefix sums of the original entries, the entries at indices `>= n`
are unchanged, and the returned value is the sum of the original first `n`
entries.  The buffer holds `uint32_t` values, so all sums are the wrapping
sums modulo `2 ^ 32`. -/
theorem C7_prefix_sum (l : List Nat) (n : Nat) (hn : n ≤ l.length) :
    ∃ l1 r, prefix_sum l n = some (l1, r) ∧
      l1.length = l.length ∧
      (∀ i : Nat, i < n → l1.get? i = some ((l.take (i + 1)).sum % U32)) ∧
      (∀ i : Nat, n ≤ i → l1.get? i = l.get? i) ∧
      r = (l.take n).sum % U32 := by
  obtain ⟨l1, r, hrun, hlen, htouch, hskip, hr⟩ := psGo_spec l n 0 (by decide) hn
  refine ⟨l1, r, hrun, hlen, ?_, hskip, ?_⟩
  · intro i hi
    have := htouch i hi
    simpa using this
  · simpa using hr

/-- Witness for C7 on the concrete buffer `[5, 7, 9]` with `n = 2`. -/
theorem C7_prefix_sum_witness :
    (2 : Nat) ≤ ([5, 7, 9] : List Nat).length ∧
    ∃ l1 r, prefix_sum [5, 7, 9] 2 = some (l1, r) ∧
      l1.length = ([5, 7, 9] : List Nat).length ∧
      (∀ i : Nat, i < 2 → l1.get? i = some ((([5, 7, 9] : List Nat).take (i + 1)).sum % U32)) ∧
      (∀ i : Nat, 2 ≤ i → l1.get? i = ([5, 7, 9] : List Nat).get? i) ∧
      r = (([5, 7, 9] : List Nat).take 2).sum % U32 :=
  ⟨by decide, C7_prefix_sum [5, 7, 9] 2 (by decide)⟩

/-- C8 -- the claim says `undriven` is `false` for every net that has a
driver cell.  In the source `bool undriven` has no initialiser and the
driven branch never assigns it, so for a driven net the field holds an
indeterminate (uninitialised) value, not `false`; only the driverless branch
writes it (`true`).  The model records "never written" as `none`: for the
driven net the field stays `none` (the claim would require `some false`),
while the undriven net gets `some true` as claimed. -/
theorem C8_undriven_never_false :
    (mkNetData 10 10 netDriven).undriven = none ∧
    (mkNetData 10 10 netUndriven).undriven = some true ∧
    netDriven.driver.isSome = true := by
  decide

theorem netFixed_iff (n : NetInfo) :
    netFixed n = true ↔
      ∃ u ∈ n.users, ∃ s, n.wires.lookup u.sinkWire = some s ∧ STRENGTH_STRONG < s := by
  rw [netFixed, List.any_eq_true]
  constructor
  · rintro ⟨u, hu, hp⟩
    cases hlk : n.wires.lookup u.sinkWire with
    | none =>
      rw [hlk] at hp
      exact Bool.noConfusion hp
    | some s =>
      rw [hlk] at hp
      exact ⟨u, hu, s, hlk, of_decide_eq_true hp⟩
  · rintro ⟨u, hu, s, hlk, hs⟩
    refine ⟨u, hu, ?_⟩
    rw [hlk]
    exact decide_eq_true hs

theorem netInvalidRoute_iff (n : NetInfo) :
    netInvalidRoute n = true ↔ ∃ u ∈ n.users, n.wires.lookup u.sinkWire = none := by
  rw [netInvalidRoute, List.any_eq_true]
  constructor
  · rintro ⟨u, hu, hp⟩
    exact ⟨u, hu, Option.isNone_iff_eq_none.mp hp⟩
  · rintro ⟨u, hu, hnone⟩
    refine ⟨u, hu, ?_⟩
    rw [hnone]
    rfl

theorem importOne_empty {gx gy : Int} {w2i : List (Nat × Nat)} {bc : List Nat} {n : NetInfo}
    (h : n.wires = []) :
    importOne gx gy w2i bc n = Except.ok ⟨mkNetData gx gy n, bc, false⟩ := by
  rw [importOne]
  rw [if_pos (by simp [h])]

theorem importOne_not_fixed {gx gy : Int} {w2i : List (Nat × Nat)} {bc : List Nat} {n : NetInfo}
    (hne : ¬ n.wires = []) (hfix : netFixed n = false) :
    importOne gx gy w2i bc n =
      Except.ok ⟨{ mkNetData gx gy n with fixed_routing := false }, bc, true⟩ := by
  rw [importOne]
  rw [if_neg (by simp [hne])]
  simp only [hfix, Bool.false_eq_true, if_false]

theorem importOne_fixed_invalid {gx gy : Int} {w2i : List (Nat × Nat)} {bc : List Nat}
    {n : NetInfo} (hne : ¬ n.wires = []) (hfix : netFixed n = true)
    (hinv : netInvalidRoute n = true) :
    importOne gx gy w2i bc n = Except.error ImpErr.fixedIncomplete := by
  rw [importOne]
  rw [if_neg (by simp [hne])]
  simp only [hfix, if_true, hinv]

theorem importOne_fixed_valid {gx gy : Int} {w2i : List (Nat × Nat)} {bc : List Nat}
    {n : NetInfo} (hne : ¬ n.wires = []) (hfix : netFixed n = true)
    (hinv : netInvalidRoute n = false) :
    importOne gx gy w2i bc n =
      match bumpFixedWires w2i n.wires bc with
      | Except.ok bc1 => Except.ok ⟨{ mkNetData gx gy n with fixed_routing := true }, bc1, false⟩
      | Except.error e => Except.error e := by
  rw [importOne]
  rw [if_neg (by simp [hne])]
  simp only [hfix, if_true, hinv, Bool.false_eq_true, if_false]

theorem bump_no_fixedIncomplete {w2i : List (Nat × Nat)} :
    ∀ {ws : List (Nat × Nat)} {bc : List Nat},
      bumpFixedWires w2i ws bc ≠ Except.error ImpErr.fixedIncomplete := by
  intro ws
  induction ws with
  | nil =>
    intro bc hcon
    rw [bumpFixedWires] at hcon
    exact Except.noConfusion hcon
  | cons pr rest ihw =>
    intro bc hcon
    obtain ⟨wid, s⟩ := pr
    rw [bumpFixedWires] at hcon
    cases hlk : w2i.lookup wid with
    | none =>
      simp only [hlk] at hcon
      injection hcon with hcon
      exact ImpErr.noConfusion hcon
    | some idx =>
      simp only [hlk] at hcon
      cases hget : bc.get? idx with
      | none =>
        simp only [hget] at hcon
        injection hcon with hcon
        exact ImpErr.noConfusion hcon
      | some c =>
        simp only [hget] at hcon
        by_cases hc : c = 0
        · rw [if_pos hc] at hcon
          exact ihw hcon
        · rw [if_neg hc] at hcon
          injection hcon with hcon
          exact ImpErr.noConfusion hcon

theorem bumpFixedWires_spec {w2i : List (Nat × Nat)} :
    ∀ {ws : List (Nat × Nat)} {bc bc1 : List Nat},
      bumpFixedWires w2i ws bc = Except.ok bc1 →
      bc1.length = bc.length ∧
      (∀ pr ∈ ws, ∃ idx, w2i.lookup pr.1 = some idx ∧ bc.get? idx = some 0 ∧
        bc1.get? idx = some 1) ∧
      (∀ idx : Nat, (∀ pr ∈ ws, w2i.lookup pr.1 ≠ some idx) → bc1.get? idx = bc.get? idx) := by
  intro ws
  induction ws with
  | nil =>
    intro bc bc1 h
    rw [bumpFixedWires] at h
    injection h with h
    subst h
    exact ⟨rfl, fun pr hpr => absurd hpr (List.not_mem_nil pr), fun idx _ => rfl⟩
  | cons pr0 rest ih =>
    intro bc bc1 h
    obtain ⟨wid, s⟩ := pr0
    rw [bumpFixedWires] at h
    cases hlk : w2i.lookup wid with
    | none => simp only [hlk] at h; exact Except.noConfusion h
    | some idx0 =>
      simp only [hlk] at h
      cases hget : bc.get? idx0 with
      | none => simp only [hget] at h; exact Except.noConfusion h
      | some c =>
        simp only [hget] at h
        by_cases hc : c = 0
        · rw [if_pos hc] at h
          subst hc
          rw [show ((0 : Nat) + 1) % 256 = 1 from rfl] at h
          have hlt : idx0 < bc.length := by
            obtain ⟨hlt, _⟩ := List.get?_eq_some.mp hget
            exact hlt
          obtain ⟨ihl, ihtouch, ihframe⟩ := ih h
          refine ⟨by rw [ihl, List.length_set], ?_, ?_⟩
          · intro pr hpr
            rcases List.mem_cons.mp hpr with hpr | hpr
            · subst hpr
              refine ⟨idx0, hlk, hget, ?_⟩
              by_cases hrt : ∀ pr2 ∈ rest, w2i.lookup pr2.1 ≠ some idx0
              · rw [ihframe idx0 hrt]
                exact List.get?_set_eq_of_lt 1 hlt
              · push_neg at hrt
                obtain ⟨pr2, hpr2, hlk2⟩ := hrt
                obtain ⟨idx', hlk', hz, _⟩ := ihtouch pr2 hpr2
                rw [hlk2] at hlk'
                injection hlk' with hlk'
                subst hlk'
                rw [List.get?_set_eq_of_lt 1 hlt] at hz
                exact absurd hz (by simp)
            · obtain ⟨idx', hlk', hz, ho⟩ := ihtouch pr hpr
              refine ⟨idx', hlk', ?_, ho⟩
              by_cases hii : idx' = idx0
              · subst hii
                rw [List.get?_set_eq_of_lt 1 hlt] at hz
                exact absurd hz (by simp)
              · rw [List.get?_set_ne 1 bc (fun he => hii he.symm)] at hz
                exact hz
          · intro idx hnone
            have hrest : ∀ pr ∈ rest, w2i.lookup pr.1 ≠ some idx :=
              fun pr hpr => hnone pr (List.mem_cons_of_mem _ hpr)
            rw [ihframe idx hrest]
            refine List.get?_set_ne 1 bc (fun he => ?_)
            exact hnone (wid, s) (List.mem_cons_self _ _) (by rw [hlk, he])
        · rw [if_neg hc] at h
          exact Except.noConfusion h

/-- C3, amended -- fixed-routing import, per net (the body of the
`import_nets` loop): for a net with pre-existing routing (`ni->wires`
non-empty), the net is marked `fixed_routing` exactly when some of its SINK
wires is present in its bindings with strength greater than `STRONG` (the
code inspects only sink wires, not every binding -- this is the amendment);
for a fixed net the import fails fatally iff some sink wire of the net is
missing from its bindings, and otherwise `bound_count` is incremented (from
0 to 1, after the overlap assertion) at the graph index of every wire of the
net; a net with non-fixed partial routing is ripped up, its `bound_count`
untouched. -/
theorem C3_fixed_routing_import (gx gy : Int) (w2i : List (Nat × Nat)) (bc : List Nat)
    (n : NetInfo) (hw : ¬ n.wires = []) :
    (netFixed n = true ↔
      ∃ u ∈ n.users, ∃ s, n.wires.lookup u.sinkWire = some s ∧ STRENGTH_STRONG < s) ∧
    (importOne gx gy w2i bc n = Except.error ImpErr.fixedIncomplete ↔
      netFixed n = true ∧ ∃ u ∈ n.users, n.wires.lookup u.sinkWire = none) ∧
    (∀ r, importOne gx gy w2i bc n = Except.ok r → r.nd.fixed_routing = netFixed n) ∧
    (netFixed n = true → ∀ r, importOne gx gy w2i bc n = Except.ok r →
      r.ripped = false ∧
      ∀ pr ∈ n.wires, ∃ idx, w2i.lookup pr.1 = some idx ∧ bc.get? idx = some 0 ∧
        r.bound_count.get? idx = some 1) ∧
    (netFixed n = false →
      importOne gx gy w2i bc n =
        Except.ok ⟨{ mkNetData gx gy n with fixed_routing := false }, bc, true⟩) := by
  refine ⟨netFixed_iff n, ?_, ?_, ?_, importOne_not_fixed hw⟩
  · constructor
    · intro herr
      cases hfix : netFixed n with
      | false =>
        rw [importOne_not_fixed hw hfix] at herr
        exact Except.noConfusion herr
      | true =>
        cases hinv : netInvalidRoute n with
        | false =>
          rw [importOne_fixed_valid hw hfix hinv] at herr
          cases hbump : bumpFixedWires w2i n.wires bc with
          | ok bc1 =>
            rw [hbump] at herr
            exact Except.noConfusion herr
          | error e =>
            rw [hbump] at herr
            injection herr with herr
            subst herr
            exact absurd hbump bump_no_fixedIncomplete
        | true =>
          exact ⟨rfl, (netInvalidRoute_iff n).mp hinv⟩
    · rintro ⟨hfix, hmiss⟩
      have hinv : netInvalidRoute n = true := (netInvalidRoute_iff n).mpr hmiss
      exact importOne_fixed_invalid hw hfix hinv
  · intro r hok
    cases hfix : netFixed n with
    | false =>
      rw [importOne_not_fixed hw hfix] at hok
      injection hok with hok
      rw [show r = ⟨{ mkNetData gx gy n with fixed_routing := false }, bc, true⟩ from hok.symm]
    | true =>
      cases hinv : netInvalidRoute n with
      | false =>
        rw [importOne_fixed_valid hw hfix hinv] at hok
        cases hbump : bumpFixedWires w2i n.wires bc with
        | ok bc1 =>
          rw [hbump] at hok
          injection hok with hok
          rw [show r = ⟨{ mkNetData gx gy n with fixed_routing := true }, bc1, false⟩ from hok.symm]
        | error e =>
          rw [hbump] at hok
          exact Except.noConfusion hok
      | true =>
        rw [importOne_fixed_invalid hw hfix hinv] at hok
        exact Except.noConfusion hok
  · intro hfix r hok
    cases hinv : netInvalidRoute n with
    | true =>
      rw [importOne_fixed_invalid hw hfix hinv] at hok
      exact Except.noConfusion hok
    | false =>
      rw [importOne_fixed_valid hw hfix hinv] at hok
      cases hbump : bumpFixedWires w2i n.wires bc with
      | ok bc1 =>
        rw [hbump] at hok
        injection hok with hok
        obtain ⟨_, htouch, _⟩ := bumpFixedWires_spec hbump
        rw [show r = ⟨{ mkNetData gx gy n with fixed_routing := true }, bc1, false⟩ from hok.symm]
        exact ⟨rfl, htouch⟩
      | error e =>
        rw [hbump] at hok
        exact Except.noConfusion hok

/-- C3 counterexample: `netC3` has a pre-existing wire binding with strength
greater than `STRONG` (wire 1), so the claim says it is marked
`fixed_routing`; the code inspects only sink wires, leaves `fixed_routing`
false and rips the net up. -/
theorem C3_nonsink_binding_counterexample :
    netFixed netC3 = false ∧
    (∃ pr ∈ netC3.wires, STRENGTH_STRONG < pr.2) ∧
    importOne 10 10 [(0, 0), (1, 1)] [0, 0] netC3 =
      Except.ok ⟨⟨⟨0, 0, 0, 0⟩, none, false⟩, [0, 0], true⟩ := by
  decide

/-- Witness for C3 (amended), on the concrete net `netC3fixed`. -/
theorem C3_fixed_routing_import_witness :
    (¬ netC3fixed.wires = []) ∧
    ((netFixed netC3fixed = true ↔
      ∃ u ∈ netC3fixed.users, ∃ s, netC3fixed.wires.lookup u.sinkWire = some s ∧
        STRENGTH_STRONG < s) ∧
    (importOne 10 10 [(5, 0)] [0] netC3fixed = Except.error ImpErr.fixedIncomplete ↔
      netFixed netC3fixed = true ∧
      ∃ u ∈ netC3fixed.users, netC3fixed.wires.lookup u.sinkWire = none) ∧
    (∀ r, importOne 10 10 [(5, 0)] [0] netC3fixed = Except.ok r →
      r.nd.fixed_routing = netFixed netC3fixed) ∧
    (netFixed netC3fixed = true → ∀ r, importOne 10 10 [(5, 0)] [0] netC3fixed = Except.ok r →
      r.ripped = false ∧
      ∀ pr ∈ netC3fixed.wires, ∃ idx, List.lookup pr.1 [(5, 0)] = some idx ∧
        List.get? [0] idx = some 0 ∧ r.bound_count.get? idx = some 1) ∧
    (netFixed netC3fixed = false →
      importOne 10 10 [(5, 0)] [0] netC3fixed =
        Except.ok ⟨{ mkNetData 10 10 netC3fixed with fixed_routing := false }, [0], true⟩)) :=
  ⟨by decide, C3_fixed_routing_import 10 10 [(5, 0)] [0] netC3fixed (by decide)⟩

/-- C9 -- the claim (and spec section 4.7/8) requires that an unroutable
input makes `router_ocular` report failure to its caller.  In the source
`operator()` only runs the three import phases and ends in `return true`;
`router_ocular` forwards that value, so on the unroutable single-net input
(driver wire without outgoing edges) the router still returns success.  No
failure-returning path exists in the code at all. -/
theorem C9_unroutable_not_reported :
    router_ocular archS6 1 1 [netS6] = some true ∧
    (some true ≠ (some false : Option Bool)) := by
  decide

theorem wireIndexAux_snd_ge {ws : List WireInfo} :
    ∀ {i : Nat} {pr : Nat × Nat}, pr ∈ wireIndexAux ws i → i ≤ pr.2 := by
  induction ws with
  | nil => intro i pr h; simp [wireIndexAux] at h
  | cons w ws ih =>
    intro i pr h
    rw [wireIndexAux, List.mem_append] at h
    rcases h with h | h
    · have := ih h
      omega
    · simp at h
      subst h
      exact le_refl i

theorem wireIndexAux_snd_inj {ws : List WireInfo} :
    ∀ {i : Nat} {w1 w2 v : Nat},
      (w1, v) ∈ wireIndexAux ws i → (w2, v) ∈ wireIndexAux ws i → w1 = w2 := by
  induction ws with
  | nil => intro i w1 w2 v h; simp [wireIndexAux] at h
  | cons w ws ih =>
    intro i w1 w2 v h1 h2
    rw [wireIndexAux, List.mem_append] at h1 h2
    rcases h1 with h1 | h1 <;> rcases h2 with h2 | h2
    · exact ih h1 h2
    · simp at h2
      obtain ⟨_, hv⟩ := h2
      have := wireIndexAux_snd_ge h1
      omega
    · simp at h1
      obtain ⟨_, hv⟩ := h1
      have := wireIndexAux_snd_ge h2
      omega
    · simp at h1 h2
      rw [h1.1, h2.1]

/-- `wire_to_index` assigns each graph index to a single wire id: lookups are
injective. -/
theorem wireIndexMap_lookup_inj (ws : List WireInfo) {w1 w2 idx : Nat}
    (h1 : (wireIndexMap ws).lookup w1 = some idx)
    (h2 : (wireIndexMap ws).lookup w2 = some idx) : w1 = w2 :=
  wireIndexAux_snd_inj (lookup_mem h1) (lookup_mem h2)

theorem replicate_get? {a : Nat} : ∀ {n i : Nat}, i < n →
    (List.replicate n a).get? i = some a := by
  intro n
  induction n with
  | zero => intro i hi; exact absurd hi (Nat.not_lt_zero i)
  | succ n ih =>
    intro i hi
    match i with
    | 0 => rfl
    | Nat.succ i => exact ih (by omega)

theorem netFixed_empty {n : NetInfo} (h : n.wires = []) : netFixed n = false := by
  rw [netFixed, h]
  induction n.users with
  | nil => rfl
  | cons u us ih => simpa [List.any_cons, List.lookup] using ih

/-- A cell a successful bump run set to 1 can never return to 0: once a wire
is accounted for, it stays accounted for. -/
theorem bump_keeps_one {w2i : List (Nat × Nat)} {ws : List (Nat × Nat)} {bc bc1 : List Nat}
    (h : bumpFixedWires w2i ws bc = Except.ok bc1) {idx : Nat}
    (h1 : bc.get? idx = some 1) : bc1.get? idx = some 1 := by
  obtain ⟨_, htouch, hframe⟩ := bumpFixedWires_spec h
  by_cases ht : ∀ pr ∈ ws, w2i.lookup pr.1 ≠ some idx
  · rw [hframe idx ht]
    exact h1
  · push_neg at ht
    obtain ⟨pr, hpr, hlk⟩ := ht
    obtain ⟨idx', hlk', h0, _⟩ := htouch pr hpr
    rw [hlk] at hlk'
    injection hlk' with hlk'
    subst hlk'
    rw [h1] at h0
    exact absurd h0 (by simp)

/-- Conversely, a successful bump writes only 1s: a cell that reads 0 after
the run already read 0 before it. -/
theorem bump_zero_back {w2i : List (Nat × Nat)} {ws : List (Nat × Nat)} {bc bc1 : List Nat}
    (h : bumpFixedWires w2i ws bc = Except.ok bc1) {idx : Nat}
    (h0 : bc1.get? idx = some 0) : bc.get? idx = some 0 := by
  obtain ⟨_, htouch, hframe⟩ := bumpFixedWires_spec h
  by_cases ht : ∀ pr ∈ ws, w2i.lookup pr.1 ≠ some idx
  · rw [hframe idx ht] at h0
    exact h0
  · push_neg at ht
    obtain ⟨pr, hpr, hlk⟩ := ht
    obtain ⟨idx', hlk', _, h1⟩ := htouch pr hpr
    rw [hlk] at hlk'
    injection hlk' with hlk'
    subst hlk'
    rw [h1] at h0
    exact absurd h0 (by simp)

/-- Under injective lookups, duplicate-free keys and all-zero pre-counts, the
overlap assertion cannot fire inside one net's bump loop. -/
theorem bump_no_assert {w2i : List (Nat × Nat)}
    (hinj : ∀ w1 w2 idx, w2i.lookup w1 = some idx → w2i.lookup w2 = some idx → w1 = w2) :
    ∀ (ws : List (Nat × Nat)) (bc : List Nat),
      (∀ pr ∈ ws, ∀ idx, w2i.lookup pr.1 = some idx → bc.get? idx = some 0) →
      (ws.map Prod.fst).Nodup →
      bumpFixedWires w2i ws bc ≠ Except.error ImpErr.assertOverlap := by
  intro ws
  induction ws with
  | nil =>
    intro bc hz hnd hcon
    rw [bumpFixedWires] at hcon
    exact Except.noConfusion hcon
  | cons pr0 rest ih =>
    intro bc hz hnd hcon
    obtain ⟨wid, s⟩ := pr0
    rw [bumpFixedWires] at hcon
    cases hlk : w2i.lookup wid with
    | none =>
      simp only [hlk] at hcon
      injection hcon with hcon
      exact ImpErr.noConfusion hcon
    | some idx =>
      simp only [hlk] at hcon
      have h0 : bc.get? idx = some 0 := hz (wid, s) (List.mem_cons_self _ _) idx hlk
      simp only [h0, if_true] at hcon
      have hnd1 : (wid :: rest.map Prod.fst).Nodup := by
        rw [List.map_cons] at hnd
        exact hnd
      have hwid_not : wid ∉ rest.map Prod.fst := (List.nodup_cons.mp hnd1).1
      refine ih (bc.set idx ((0 + 1) % 256)) ?_ ?_ hcon
      · intro pr hpr idx' hlk'
        have hii : idx' ≠ idx := by
          intro he
          subst he
          have := hinj pr.1 wid idx' hlk' hlk
          exact hwid_not (this ▸ List.mem_map_of_mem Prod.fst hpr)
        rw [List.get?_set_ne _ bc (fun he => hii he.symm)]
        exact hz pr (List.mem_cons_of_mem _ hpr) idx' hlk'
      · exact (List.nodup_cons.mp hnd1).2

/-- When every wire of the net maps to an in-range graph index, the bump loop
either succeeds or fails with the overlap assertion (never `badIndex`). -/
theorem bump_ok_or_assert {w2i : List (Nat × Nat)} :
    ∀ (ws : List (Nat × Nat)) (bc : List Nat),
      (∀ pr ∈ ws, ∃ idx, w2i.lookup pr.1 = some idx ∧ idx < bc.length) →
      (∃ bc1, bumpFixedWires w2i ws bc = Except.ok bc1 ∧ bc1.length = bc.length) ∨
        bumpFixedWires w2i ws bc = Except.error ImpErr.assertOverlap := by
  intro ws
  induction ws with
  | nil =>
    intro bc hv
    exact Or.inl ⟨bc, rfl, rfl⟩
  | cons pr0 rest ih =>
    intro bc hv
    obtain ⟨wid, s⟩ := pr0
    obtain ⟨idx, hlk, hlt⟩ := hv (wid, s) (List.mem_cons_self _ _)
    have hlk2 : w2i.lookup wid = some idx := hlk
    rw [bumpFixedWires]
    simp only [hlk2, List.get?_eq_get hlt]
    by_cases hc : bc.get ⟨idx, hlt⟩ = 0
    · rw [if_pos hc]
      rcases ih (bc.set idx ((bc.get ⟨idx, hlt⟩ + 1) % 256)) (fun pr hpr => by
        obtain ⟨idx', hlk', hlt'⟩ := hv pr (List.mem_cons_of_mem _ hpr)
        exact ⟨idx', hlk', by rw [List.length_set]; exact hlt'⟩) with hok | hassert
      · obtain ⟨bc1, hbc1, hlen⟩ := hok
        exact Or.inl ⟨bc1, hbc1, by rw [hlen, List.length_set]⟩
      · exact Or.inr hassert
    · rw [if_neg hc]
      exact Or.inr rfl

theorem importOne_ok_cases {gx gy : Int} {w2i : List (Nat × Nat)} {bc : List Nat}
    {n : NetInfo} {r : ImportNetResult}
    (h : importOne gx gy w2i bc n = Except.ok r) :
    (netFixed n = false ∧ r.bound_count = bc) ∨
    (netFixed n = true ∧ netInvalidRoute n = false ∧ ¬ n.wires = [] ∧
      bumpFixedWires w2i n.wires bc = Except.ok r.bound_count) := by
  by_cases hw : n.wires = []
  · rw [importOne_empty hw] at h
    injection h with h
    refine Or.inl ⟨netFixed_empty hw, ?_⟩
    rw [show r = ⟨mkNetData gx gy n, bc, false⟩ from h.symm]
  · cases hfix : netFixed n with
    | false =>
      rw [importOne_not_fixed hw hfix] at h
      injection h with h
      refine Or.inl ⟨rfl, ?_⟩
      rw [show r = ⟨{ mkNetData gx gy n with fixed_routing := false }, bc, true⟩ from h.symm]
    | true =>
      cases hinv : netInvalidRoute n with
      | true =>
        rw [importOne_fixed_invalid hw hfix hinv] at h
        exact Except.noConfusion h
      | false =>
        rw [importOne_fixed_valid hw hfix hinv] at h
        cases hbump : bumpFixedWires w2i n.wires bc with
        | ok bc2 =>
          rw [hbump] at h
          injection h with h
          refine Or.inr ⟨rfl, rfl, hw, ?_⟩
          rw [show r = ⟨{ mkNetData gx gy n with fixed_routing := true }, bc2, false⟩ from h.symm]
        | error e =>
          rw [hbump] at h
          exact Except.noConfusion h

theorem FixedDisj_cons {n : NetInfo} {ns : List NetInfo} (h : FixedDisj (n :: ns)) :
    FixedDisj ns ∧
    (netFixed n = true → ∀ m ∈ ns, netFixed m = true →
      ∀ w ∈ netWireIds n, w ∉ netWireIds m) := by
  rw [FixedDisj, List.filter_cons] at h
  cases hfix : netFixed n with
  | false =>
    simp only [hfix, Bool.false_eq_true, if_false] at h
    refine ⟨by rw [FixedDisj]; exact h, ?_⟩
    intro hcon
    exact Bool.noConfusion hcon
  | true =>
    simp only [hfix, if_true] at h
    rw [List.pairwise_cons] at h
    refine ⟨by rw [FixedDisj]; exact h.2, fun _ m hm hmfix w hw => h.1 m ?_ w hw⟩
    rw [List.mem_filter]
    exact ⟨hm, hmfix⟩

theorem importNets_keeps_one {gx gy : Int} {w2i : List (Nat × Nat)} :
    ∀ {ns : List NetInfo} {bc bc1 : List Nat},
      import_nets gx gy w2i bc ns = Except.ok bc1 →
      ∀ {idx : Nat}, bc.get? idx = some 1 → bc1.get? idx = some 1 := by
  intro ns
  induction ns with
  | nil =>
    intro bc bc1 h idx h1
    rw [import_nets] at h
    injection h with h
    subst h
    exact h1
  | cons n ns ih =>
    intro bc bc1 h idx h1
    rw [import_nets] at h
    cases hone : importOne gx gy w2i bc n with
    | error e => simp only [hone] at h; exact Except.noConfusion h
    | ok r =>
      simp only [hone] at h
      rcases importOne_ok_cases hone with ⟨_, heq⟩ | ⟨_, _, _, hbump⟩
      · exact ih h (by rw [heq]; exact h1)
      · exact ih h (bump_keeps_one hbump h1)

theorem importNets_ok_pre_zero {gx gy : Int} {w2i : List (Nat × Nat)} :
    ∀ {ns : List NetInfo} {bc bc1 : List Nat},
      import_nets gx gy w2i bc ns = Except.ok bc1 →
      ∀ n ∈ ns, netFixed n = true → ∀ w ∈ netWireIds n,
        ∃ idx, w2i.lookup w = some idx ∧ bc.get? idx = some 0 ∧ bc1.get? idx = some 1 := by
  intro ns
  induction ns with
  | nil =>
    intro bc bc1 h n hn
    exact absurd hn (List.not_mem_nil n)
  | cons n0 ns ih =>
    intro bc bc1 h n hn hfix w hw
    rw [import_nets] at h
    cases hone : importOne gx gy w2i bc n0 with
    | error e => simp only [hone] at h; exact Except.noConfusion h
    | ok r =>
      simp only [hone] at h
      rcases List.mem_cons.mp hn with hn | hn
      · subst hn
        rcases importOne_ok_cases hone with ⟨hff, _⟩ | ⟨_, _, _, hbump⟩
        · rw [hfix] at hff
          exact Bool.noConfusion hff
        · rw [netWireIds] at hw
          obtain ⟨pr, hpr, hprw⟩ := List.mem_map.mp hw
          obtain ⟨_, htouch, _⟩ := bumpFixedWires_spec hbump
          obtain ⟨idx, hlk, h0, h1⟩ := htouch pr hpr
          exact ⟨idx, hprw ▸ hlk, h0, importNets_keeps_one h h1⟩
      · obtain ⟨idx, hlk, h0, h1⟩ := ih h n hn hfix w hw
        refine ⟨idx, hlk, ?_, h1⟩
        rcases importOne_ok_cases hone with ⟨_, heq⟩ | ⟨_, _, _, hbump⟩
        · rw [heq] at h0
          exact h0
        · exact bump_zero_back hbump h0

theorem importNets_ok_disjoint {gx gy : Int} {w2i : List (Nat × Nat)} :
    ∀ {ns : List NetInfo} {bc bc1 : List Nat},
      import_nets gx gy w2i bc ns = Except.ok bc1 → FixedDisj ns := by
  intro ns
  induction ns with
  | nil =>
    intro bc bc1 h
    rw [FixedDisj]
    simp
  | cons n ns ih =>
    intro bc bc1 h
    rw [import_nets] at h
    cases hone : importOne gx gy w2i bc n with
    | error e => simp only [hone] at h; exact Except.noConfusion h
    | ok r =>
      simp only [hone] at h
      have htail : FixedDisj ns := ih h
      rw [FixedDisj, List.filter_cons]
      cases hfix : netFixed n with
      | false =>
        simp only [hfix, Bool.false_eq_true, if_false]
        rw [FixedDisj] at htail
        exact htail
      | true =>
        simp only [hfix, if_true]
        rw [List.pairwise_cons]
        refine ⟨?_, by rw [FixedDisj] at htail; exact htail⟩
        intro m hm w hwn hwm
        have hmns := List.mem_filter.mp hm
        rcases importOne_ok_cases hone with ⟨hff, _⟩ | ⟨_, _, _, hbump⟩
        · rw [hfix] at hff
          exact Bool.noConfusion hff
        · rw [netWireIds] at hwn
          obtain ⟨pr, hpr, hprw⟩ := List.mem_map.mp hwn
          obtain ⟨_, htouch, _⟩ := bumpFixedWires_spec hbump
          obtain ⟨idx, hlk, _, h1⟩ := htouch pr hpr
          obtain ⟨idx2, hlk2, h0, _⟩ := importNets_ok_pre_zero h m hmns.1 hmns.2 w hwm
          rw [hprw] at hlk
          rw [hlk] at hlk2
          injection hlk2 with hlk2
          subst hlk2
          rw [h1] at h0
          exact absurd h0 (by simp)

theorem importNets_ok_or_assert {gx gy : Int} {w2i : List (Nat × Nat)} :
    ∀ (ns : List NetInfo) (bc : List Nat),
      (∀ n ∈ ns, netFixed n = true → netInvalidRoute n = false) →
      (∀ n ∈ ns, netFixed n = true → ∀ w ∈ netWireIds n,
        ∃ idx, w2i.lookup w = some idx ∧ idx < bc.length) →
      (∃ bc1, import_nets gx gy w2i bc ns = Except.ok bc1) ∨
        import_nets gx gy w2i bc ns = Except.error ImpErr.assertOverlap := by
  intro ns
  induction ns with
  | nil =>
    intro bc _ _
    exact Or.inl ⟨bc, rfl⟩
  | cons n ns ih =>
    intro bc hcmpl hvalid
    rw [import_nets]
    by_cases hw : n.wires = []
    · rw [importOne_empty hw]
      exact ih bc (fun m hm => hcmpl m (List.mem_cons_of_mem _ hm))
        (fun m hm => hvalid m (List.mem_cons_of_mem _ hm))
    · cases hfix : netFixed n with
      | false =>
        rw [importOne_not_fixed hw hfix]
        exact ih bc (fun m hm => hcmpl m (List.mem_cons_of_mem _ hm))
          (fun m hm => hvalid m (List.mem_cons_of_mem _ hm))
      | true =>
        have hinv : netInvalidRoute n = false := hcmpl n (List.mem_cons_self _ _) hfix
        rw [importOne_fixed_valid hw hfix hinv]
        have hv : ∀ pr ∈ n.wires, ∃ idx, w2i.lookup pr.1 = some idx ∧ idx < bc.length := by
          intro pr hpr
          refine hvalid n (List.mem_cons_self _ _) hfix pr.1 ?_
          rw [netWireIds]
          exact List.mem_map_of_mem Prod.fst hpr
        rcases bump_ok_or_assert n.wires bc hv with ⟨bc2, hbump, hlen⟩ | hbump
        · rw [hbump]
          exact ih bc2 (fun m hm => hcmpl m (List.mem_cons_of_mem _ hm))
            (fun m hm hmfix w hw2 => by
              obtain ⟨idx, hlk, hlt⟩ := hvalid m (List.mem_cons_of_mem _ hm) hmfix w hw2
              exact ⟨idx, hlk, by rw [hlen]; exact hlt⟩)
        · rw [hbump]
          exact Or.inr rfl

theorem importNets_aux {gx gy : Int} {w2i : List (Nat × Nat)}
    (hinj : ∀ w1 w2 idx, w2i.lookup w1 = some idx → w2i.lookup w2 = some idx → w1 = w2) :
    ∀ (ns : List NetInfo) (bc : List Nat),
      FixedDisj ns → FixedNodup ns →
      (∀ n ∈ ns, netFixed n = true → ∀ w ∈ netWireIds n, ∀ idx,
        w2i.lookup w = some idx → bc.get? idx = some 0) →
      import_nets gx gy w2i bc ns ≠ Except.error ImpErr.assertOverlap ∧
      (∀ bc1, import_nets gx gy w2i bc ns = Except.ok bc1 →
        (∀ n ∈ ns, netFixed n = true → ∀ w ∈ netWireIds n, ∀ idx,
          w2i.lookup w = some idx → bc1.get? idx = some 1) ∧
        (∀ idx : Nat,
          (∀ n ∈ ns, netFixed n = true → ∀ w ∈ netWireIds n, w2i.lookup w ≠ some idx) →
          bc1.get? idx = bc.get? idx)) := by
  intro ns
  induction ns with
  | nil =>
    intro bc _ _ _
    refine ⟨fun hcon => by rw [import_nets] at hcon; exact Except.noConfusion hcon, ?_⟩
    intro bc1 h
    rw [import_nets] at h
    injection h with h
    subst h
    exact ⟨fun n hn => absurd hn (List.not_mem_nil n), fun idx _ => rfl⟩
  | cons n ns ih =>
    intro bc hdisj hnodup hz
    obtain ⟨hdisj_tail, hd⟩ := FixedDisj_cons hdisj
    have hnodup_tail : FixedNodup ns := fun m hm => hnodup m (List.mem_cons_of_mem _ hm)
    by_cases hw : n.wires = []
    · have hstep : import_nets gx gy w2i bc (n :: ns) = import_nets gx gy w2i bc ns := by
        rw [import_nets, importOne_empty hw]
      rw [hstep]
      obtain ⟨hA, hB⟩ := ih bc hdisj_tail hnodup_tail
        (fun m hm => hz m (List.mem_cons_of_mem _ hm))
      refine ⟨hA, ?_⟩
      intro bc1 h
      obtain ⟨hT, hF⟩ := hB bc1 h
      refine ⟨?_, ?_⟩
      · intro m hm hmfix
        rcases List.mem_cons.mp hm with hm | hm
        · subst hm
          rw [netFixed_empty hw] at hmfix
          exact Bool.noConfusion hmfix
        · exact hT m hm hmfix
      · intro idx hcond
        exact hF idx (fun m hm => hcond m (List.mem_cons_of_mem _ hm))
    · cases hfix : netFixed n with
      | false =>
        have hstep : import_nets gx gy w2i bc (n :: ns) = import_nets gx gy w2i bc ns := by
          rw [import_nets, importOne_not_fixed hw hfix]
        rw [hstep]
        obtain ⟨hA, hB⟩ := ih bc hdisj_tail hnodup_tail
          (fun m hm => hz m (List.mem_cons_of_mem _ hm))
        refine ⟨hA, ?_⟩
        intro bc1 h
        obtain ⟨hT, hF⟩ := hB bc1 h
        refine ⟨?_, ?_⟩
        · intro m hm hmfix
          rcases List.mem_cons.mp hm with hm | hm
          · subst hm
            rw [hfix] at hmfix
            exact Bool.noConfusion hmfix
          · exact hT m hm hmfix
        · intro idx hcond
          exact hF idx (fun m hm => hcond m (List.mem_cons_of_mem _ hm))
      | true =>
        cases hinv : netInvalidRoute n with
        | true =>
          have hstep : import_nets gx gy w2i bc (n :: ns) =
              Except.error ImpErr.fixedIncomplete := by
            rw [import_nets, importOne_fixed_invalid hw hfix hinv]
          rw [hstep]
          refine ⟨fun hcon => ?_, fun bc1 h => Except.noConfusion h⟩
          injection hcon with hcon
          exact ImpErr.noConfusion hcon
        | false =>
          cases hbump : bumpFixedWires w2i n.wires bc with
          | error e =>
            have hstep : import_nets gx gy w2i bc (n :: ns) = Except.error e := by
              rw [import_nets, importOne_fixed_valid hw hfix hinv, hbump]
            rw [hstep]
            have hnassert : e ≠ ImpErr.assertOverlap := by
              intro he
              subst he
              exact bump_no_assert hinj n.wires bc
                (fun pr hpr idx hlk => hz n (List.mem_cons_self _ _) hfix pr.1
                  (by rw [netWireIds]; exact List.mem_map_of_mem Prod.fst hpr) idx hlk)
                (hnodup n (List.mem_cons_self _ _) hfix) hbump
            refine ⟨fun hcon => ?_, fun bc1 h => Except.noConfusion h⟩
            injection hcon with hcon
            exact hnassert hcon
          | ok bc2 =>
            have hstep : import_nets gx gy w2i bc (n :: ns) =
                import_nets gx gy w2i bc2 ns := by
              rw [import_nets, importOne_fixed_valid hw hfix hinv, hbump]
            rw [hstep]
            obtain ⟨hbl, hbtouch, hbframe⟩ := bumpFixedWires_spec hbump
            have hz2 : ∀ m ∈ ns, netFixed m = true → ∀ w ∈ netWireIds m, ∀ idx,
                w2i.lookup w = some idx → bc2.get? idx = some 0 := by
              intro m hm hmfix w hwm idx hlk
              have hfr : ∀ pr ∈ n.wires, w2i.lookup pr.1 ≠ some idx := by
                intro pr hpr hlk2
                have hpw : pr.1 = w := hinj pr.1 w idx hlk2 hlk
                have hwn : w ∈ netWireIds n := by
                  rw [netWireIds]
                  exact hpw ▸ List.mem_map_of_mem Prod.fst hpr
                exact hd hfix m hm hmfix w hwn hwm
              rw [hbframe idx hfr]
              exact hz m (List.mem_cons_of_mem _ hm) hmfix w hwm idx hlk
            obtain ⟨hA, hB⟩ := ih bc2 hdisj_tail hnodup_tail hz2
            refine ⟨hA, ?_⟩
            intro bc1 h
            obtain ⟨hT, hF⟩ := hB bc1 h
            refine ⟨?_, ?_⟩
            · intro m hm hmfix w hwm idx hlk
              rcases List.mem_cons.mp hm with hm | hm
              · subst hm
                have hwm0 := hwm
                rw [netWireIds] at hwm
                obtain ⟨pr, hpr, hprw⟩ := List.mem_map.mp hwm
                obtain ⟨idx', hlk', h0, h1⟩ := hbtouch pr hpr
                rw [hprw] at hlk'
                rw [hlk] at hlk'
                injection hlk' with hlk'
                subst hlk'
                have hcond2 : ∀ m2 ∈ ns, netFixed m2 = true → ∀ w2 ∈ netWireIds m2,
                    w2i.lookup w2 ≠ some idx := by
                  intro m2 hm2 hm2fix w2 hw2 hlk2
                  have hww : w2 = w := hinj w2 w idx hlk2 hlk
                  subst hww
                  exact hd hfix m2 hm2 hm2fix w2 hwm0 hw2
                rw [hF idx hcond2]
                exact h1
              · exact hT m hm hmfix w hwm idx hlk
            · intro idx hcond
              rw [hF idx (fun m hm => hcond m (List.mem_cons_of_mem _ hm))]
              exact hbframe idx (fun pr hpr hlk =>
                hcond n (List.mem_cons_self _ _) hfix pr.1
                  (by rw [netWireIds]; exact List.mem_map_of_mem Prod.fst hpr) hlk)

/-- C10 -- fixed-net wire exclusivity (with `wire_to_index` and `bound_count`
as `build_graph` leaves them: the index map of the imported wires and an
all-zero count array).  (1) Under pairwise-disjoint, duplicate-free fixed
wire sets the assertion `bound_count.at(idx) == 0` never fires; (2) under the
same precondition a completed `import_nets` leaves `bound_count` at exactly 1
on every graph index of a wire of a fixed net and 0 on every other index;
(3) completion itself forces the fixed wire sets to be pairwise disjoint; and
(4) when two fixed nets share a wire (i.e. disjointness fails) while every
fixed net is complete and all its wires map to graph indices, `import_nets`
aborts via that assertion instead of completing. -/
theorem C10_fixed_exclusivity (ws : List WireInfo) (gx gy : Int) (ns : List NetInfo) :
    (FixedDisj ns → FixedNodup ns →
      import_nets gx gy (wireIndexMap ws) (List.replicate ws.length 0) ns ≠
        Except.error ImpErr.assertOverlap) ∧
    (FixedDisj ns → FixedNodup ns →
      ∀ bc1, import_nets gx gy (wireIndexMap ws) (List.replicate ws.length 0) ns =
          Except.ok bc1 →
        ∀ idx : Nat, idx < ws.length →
          ((∃ n ∈ ns, netFixed n = true ∧ ∃ w ∈ netWireIds n,
              (wireIndexMap ws).lookup w = some idx) → bc1.get? idx = some 1) ∧
          ((¬ ∃ n ∈ ns, netFixed n = true ∧ ∃ w ∈ netWireIds n,
              (wireIndexMap ws).lookup w = some idx) → bc1.get? idx = some 0)) ∧
    (∀ bc1, import_nets gx gy (wireIndexMap ws) (List.replicate ws.length 0) ns =
        Except.ok bc1 → FixedDisj ns) ∧
    ((∀ n ∈ ns, netFixed n = true → netInvalidRoute n = false) →
     (∀ n ∈ ns, netFixed n = true → ∀ w ∈ netWireIds n,
        ((wireIndexMap ws).lookup w).isSome = true) →
     ¬ FixedDisj ns →
      import_nets gx gy (wireIndexMap ws) (List.replicate ws.length 0) ns =
        Except.error ImpErr.assertOverlap) := by
  have hinj : ∀ w1 w2 idx, (wireIndexMap ws).lookup w1 = some idx →
      (wireIndexMap ws).lookup w2 = some idx → w1 = w2 :=
    fun w1 w2 idx h1 h2 => wireIndexMap_lookup_inj ws h1 h2
  have hlt : ∀ {w idx : Nat}, (wireIndexMap ws).lookup w = some idx → idx < ws.length :=
    fun {w idx} h => wireIndexMap_snd_lt (lookup_mem h)
  have hz0 : ∀ n ∈ ns, netFixed n = true → ∀ w ∈ netWireIds n, ∀ idx,
      (wireIndexMap ws).lookup w = some idx →
      (List.replicate ws.length (0 : Nat)).get? idx = some 0 :=
    fun n hn hfix w hw idx hlk => replicate_get? (hlt hlk)
  refine ⟨?_, ?_, ?_, ?_⟩
  · intro hdisj hnodup
    exact (importNets_aux hinj ns _ hdisj hnodup hz0).1
  · intro hdisj hnodup bc1 hok idx hidx
    obtain ⟨hT, hF⟩ := (importNets_aux hinj ns _ hdisj hnodup hz0).2 bc1 hok
    constructor
    · rintro ⟨n, hn, hfix, w, hw, hlk⟩
      exact hT n hn hfix w hw idx hlk
    · intro hnone
      have hcond : ∀ m ∈ ns, netFixed m = true → ∀ w ∈ netWireIds m,
          (wireIndexMap ws).lookup w ≠ some idx :=
        fun m hm hmfix w hwm hlk => hnone ⟨m, hm, hmfix, w, hwm, hlk⟩
      rw [hF idx hcond]
      exact replicate_get? hidx
  · intro bc1 hok
    exact importNets_ok_disjoint hok
  · intro hcmpl hvalid hndisj
    have hvalid2 : ∀ n ∈ ns, netFixed n = true → ∀ w ∈ netWireIds n,
        ∃ idx, (wireIndexMap ws).lookup w = some idx ∧
          idx < (List.replicate ws.length (0 : Nat)).length := by
      intro n hn hfix w hw
      cases hlk : (wireIndexMap ws).lookup w with
      | none =>
        have hs := hvalid n hn hfix w hw
        rw [hlk] at hs
        exact absurd hs (by simp)
      | some idx =>
        exact ⟨idx, rfl, by rw [List.length_replicate]; exact hlt hlk⟩
    rcases importNets_ok_or_assert ns _ hcmpl hvalid2 with ⟨bc1, hok⟩ | hassert
    · exact absurd (importNets_ok_disjoint hok) hndisj
    · exact hassert

/-- Witness for C10: with two disjoint fixed nets the assertion never fires
and the count lands at 1 on their wires; with two overlapping fixed nets the
run aborts via the assertion. -/
theorem C10_fixed_exclusivity_witness :
    FixedDisj [netC10a, netC10b] ∧ FixedNodup [netC10a, netC10b] ∧
    import_nets 1 1 (wireIndexMap wsC10) (List.replicate wsC10.length 0)
        [netC10a, netC10b] ≠ Except.error ImpErr.assertOverlap ∧
    List.get? [1, 1] 0 = some 1 ∧
    import_nets 1 1 (wireIndexMap wsC10) (List.replicate wsC10.length 0)
        [netC10a, netC10c] = Except.error ImpErr.assertOverlap :=
  ⟨by decide, by decide,
   (C10_fixed_exclusivity wsC10 1 1 [netC10a, netC10b]).1 (by decide) (by decide),
   ((C10_fixed_exclusivity wsC10 1 1 [netC10a, netC10b]).2.1 (by decide) (by decide)
      [1, 1] (by decide) 0 (by decide)).1 (by decide),
   (C10_fixed_exclusivity wsC10 1 1 [netC10a, netC10c]).2.2.2 (by decide) (by decide)
      (by decide)⟩

end Ocular
